import Mathlib

/-!
Verification of the data_platform repository's universal ingestion pipeline.

This file gives a shallow embedding, in Lean 4, of the parts of the
repository relevant to the frozen claims: the URL normalizer
(`core/scraping/normalizer.py`), the link extractor
(`core/scraping/parser.py`), the scraper plugin registry and the two
site-specific filter strategies (`scrapers/`), the dataset-name heuristic
and the universal download flow (`flows/universal_downloader.py`), the
PDF table extraction and upload service (`services/pdf_processor.py`),
and the pipeline configuration validator (`core/config.py`).

Python strings are modelled as `List Char` (with `String` wrappers at the
API boundary); Python library calls (`urllib.parse`, `os.path`,
`pandas.DataFrame` construction) are modelled explicitly, following the
CPython implementations of `urlsplit`/`urlparse`/`urlunparse`/
`parse_qsl`/`urlencode`/`quote_plus`/`unquote`.  External effects
(HTTP fetches, Google Cloud Storage uploads, the filesystem) are
modelled as explicit oracle environments, and the flow records the
network operations it performs as an event trace.
-/

set_option maxHeartbeats 1000000
set_option maxRecDepth 4000

namespace DataPlatform

/-! ## Basic character-list utilities (models of Python str operations) -/

abbrev Chars := List Char

/-- Model of the test `needle` is a prefix of `haystack` (on char lists). -/
def leadsWith : Chars → Chars → Bool
  | [], _ => true
  | _ :: _, [] => false
  | a :: as, b :: bs => a == b && leadsWith as bs

/-- Model of Python `needle in haystack` (substring containment). -/
def hasSub (needle : Chars) : Chars → Bool
  | [] => needle.isEmpty
  | c :: rest => leadsWith needle (c :: rest) || hasSub needle rest

/-- String wrapper for `hasSub`: Python `needle in haystack`. -/
def strContains (haystack needle : String) : Bool :=
  hasSub needle.data haystack.data

/-- Model of Python `s.split(sep)` for a one-character separator: the
result is never empty and the separators are dropped. -/
def splitChar (c : Char) : Chars → List Chars
  | [] => [[]]
  | x :: xs =>
    if x = c then [] :: splitChar c xs
    else
      match splitChar c xs with
      | [] => [[x]]
      | s :: ss => (x :: s) :: ss

/-- Split at the first occurrence of `c`; `none` when `c` does not occur.
Models Python `s.find(c)` plus slicing (the separator is dropped). -/
def splitFirst (c : Char) : Chars → Option (Chars × Chars)
  | [] => none
  | x :: xs =>
    if x = c then some ([], xs)
    else (splitFirst c xs).map (fun p => (x :: p.1, p.2))

/-- Split at the last occurrence of `c`; models Python `s.rfind(c)` plus
slicing. -/
def splitLast (c : Char) (l : Chars) : Option (Chars × Chars) :=
  (splitFirst c l.reverse).map (fun p => (p.2.reverse, p.1.reverse))

/-- Model of Python `s.lower()` restricted to ASCII (the inputs the
pipeline handles); `Char.toLower` maps A-Z to a-z and is the identity
elsewhere. -/
def lowerL (l : Chars) : Chars := l.map Char.toLower

/-- Fuel-indexed worker for `replaceAll` (structural recursion on the
fuel keeps the definition kernel-reducible; the fuel never runs out
when it starts at the input length). -/
def replaceAllFuel (old new : Chars) : Nat → Chars → Chars
  | 0, l => l
  | _ + 1, [] => []
  | fuel + 1, c :: rest =>
    if leadsWith old (c :: rest) ∧ old ≠ [] then
      new ++ replaceAllFuel old new fuel ((c :: rest).drop old.length)
    else
      c :: replaceAllFuel old new fuel rest

/-- Model of Python `s.replace(old, new)` for char-list strings: replaces
every non-overlapping occurrence, scanning left to right.  `old` must be
non-empty (as in all call sites in the repository). -/
def replaceAll (old new : Chars) (l : Chars) : Chars :=
  replaceAllFuel old new l.length l

/-- Model of Python `s.strip(chars)`: drop characters of `cs` from both
ends. -/
def stripChars (cs : Chars) (l : Chars) : Chars :=
  ((l.dropWhile (fun c => cs.contains c)).reverse.dropWhile
    (fun c => cs.contains c)).reverse

/-- Model of Python `path.split("/")[-1]` (`split` never returns an empty
list, so the last element always exists). -/
def lastSeg (l : Chars) : Chars :=
  (splitChar '/' l).reverse.headD []

/-- Join a list of char-list strings with a one-character separator
(model of Python `sep.join(parts)`). -/
def joinChar (c : Char) : List Chars → Chars
  | [] => []
  | [x] => x
  | x :: y :: xs => x ++ c :: joinChar c (y :: xs)

/-! ## Model of urllib.parse quoting: quote_plus / unquote (UTF-8)

`urlencode` (with its default `quote_via=quote_plus`) keeps ASCII
letters, digits and `_.-~`, turns a space into `+`, and percent-encodes
every other character as the uppercase-hex bytes of its UTF-8 encoding.
`parse_qsl` reverses this: it replaces `+` by a space and then feeds
maximal runs of `%XX` through the UTF-8 decoder (`errors="replace"`:
invalid sequences become U+FFFD; the model emits one replacement
character per bad lead byte, a granularity that differs from CPython
only on byte sequences that no encoder produces). -/

/-- Uppercase hexadecimal digit for a value below 16. -/
def hexUpper (n : Nat) : Char :=
  if n < 10 then Char.ofNat (48 + n) else Char.ofNat (55 + n)

/-- Model of the hexadecimal-digit test used by `unquote`. -/
def isHexDigit (c : Char) : Bool :=
  (48 ≤ c.toNat && c.toNat ≤ 57) || (65 ≤ c.toNat && c.toNat ≤ 70) ||
    (97 ≤ c.toNat && c.toNat ≤ 102)

/-- Numeric value of a hexadecimal digit. -/
def hexVal (c : Char) : Nat :=
  if c.toNat ≤ 57 then c.toNat - 48
  else if c.toNat ≤ 70 then c.toNat - 55
  else c.toNat - 87

/-- UTF-8 encoding of a unicode code point, as a list of byte values. -/
def utf8Encode (n : Nat) : List Nat :=
  if n < 0x80 then [n]
  else if n < 0x800 then [0xC0 + n / 64, 0x80 + n % 64]
  else if n < 0x10000 then
    [0xE0 + n / 4096, 0x80 + n / 64 % 64, 0x80 + n % 64]
  else
    [0xF0 + n / 262144, 0x80 + n / 4096 % 64, 0x80 + n / 64 % 64,
      0x80 + n % 64]

/-- The U+FFFD replacement character produced by `errors="replace"`. -/
def replChar : Char := Char.ofNat 0xFFFD

/-- One UTF-8 decoding step: given a lead byte and the remaining bytes,
produce the decoded character (`replChar` for an invalid or truncated
sequence) and the bytes still to decode. -/
def utf8Step (b : Nat) (bs : List Nat) : Char × List Nat :=
  if b < 0x80 then (Char.ofNat b, bs)
  else if b < 0xC2 then (replChar, bs)
  else if b < 0xE0 then
    match bs with
    | b1 :: rest =>
      if 0x80 ≤ b1 ∧ b1 < 0xC0 then
        (Char.ofNat ((b - 0xC0) * 64 + (b1 - 0x80)), rest)
      else (replChar, b1 :: rest)
    | [] => (replChar, [])
  else if b < 0xF0 then
    match bs with
    | b1 :: b2 :: rest =>
      if 0x80 ≤ b1 ∧ b1 < 0xC0 ∧ 0x80 ≤ b2 ∧ b2 < 0xC0 ∧
          (b = 0xE0 → 0xA0 ≤ b1) ∧ (b = 0xED → b1 < 0xA0) then
        (Char.ofNat ((b - 0xE0) * 4096 + (b1 - 0x80) * 64 + (b2 - 0x80)),
          rest)
      else (replChar, b1 :: b2 :: rest)
    | rest => (replChar, rest)
  else if b < 0xF5 then
    match bs with
    | b1 :: b2 :: b3 :: rest =>
      if 0x80 ≤ b1 ∧ b1 < 0xC0 ∧ 0x80 ≤ b2 ∧ b2 < 0xC0 ∧ 0x80 ≤ b3 ∧
          b3 < 0xC0 ∧ (b = 0xF0 → 0x90 ≤ b1) ∧ (b = 0xF4 → b1 < 0x90) then
        (Char.ofNat ((b - 0xF0) * 262144 + (b1 - 0x80) * 4096 +
          (b2 - 0x80) * 64 + (b3 - 0x80)), rest)
      else (replChar, b1 :: b2 :: b3 :: rest)
    | rest => (replChar, rest)
  else (replChar, bs)

/-- Fuel-indexed UTF-8 decoding loop (the fuel only bounds the number
of steps; it never runs out when it starts at the list length). -/
def utf8DecodeF : Nat → List Nat → List Char
  | 0, _ => []
  | _ + 1, [] => []
  | fuel + 1, b :: bs =>
    (utf8Step b bs).1 :: utf8DecodeF fuel (utf8Step b bs).2

/-- UTF-8 decoding of a byte list into characters; invalid or truncated
sequences produce `replChar` for the offending lead byte (see the module
note on granularity). -/
def utf8Decode (l : List Nat) : List Char := utf8DecodeF l.length l

/-- Percent-encode one byte as `%` plus two uppercase hex digits. -/
def pctEncodeByte (b : Nat) : Chars :=
  ['%', hexUpper (b / 16), hexUpper (b % 16)]

/-- Characters `quote`/`quote_plus` never encode (`_ALWAYS_SAFE`): ASCII
letters, digits, and `_.-~` (with `safe=""` as `urlencode` uses). -/
def isAlwaysSafe (c : Char) : Bool :=
  c.isAlphanum || c = '_' || c = '.' || c = '-' || c = '~'

/-- Model of `quote_plus(str(c), safe="")` for one character. -/
def quotePlusChar (c : Char) : Chars :=
  if c = ' ' then ['+']
  else if isAlwaysSafe c then [c]
  else (utf8Encode c.toNat).flatMap pctEncodeByte

/-- Model of `quote_plus(s, safe="")`, the encoder `urlencode` applies to
each name and value. -/
def quotePlus (s : Chars) : Chars := s.flatMap quotePlusChar

/-- Model of `s.replace("+", " ")`, applied by `parse_qsl` before
unquoting. -/
def replPlus (s : Chars) : Chars :=
  s.map (fun c => if c = '+' then ' ' else c)

/-- Model of `urllib.parse.unquote(s, "utf-8", "replace")`: maximal runs
of `%XX` are collected into a byte buffer (accumulated in reverse) and
decoded together; a `%` not followed by two hex digits, and every other
character, is literal and flushes the buffer. -/
def unqAux : Chars → List Nat → Chars
  | [], buf => utf8Decode buf.reverse
  | '%' :: h1 :: h2 :: rest, buf =>
    if isHexDigit h1 && isHexDigit h2 then
      unqAux rest ((hexVal h1 * 16 + hexVal h2) :: buf)
    else utf8Decode buf.reverse ++ '%' :: unqAux (h1 :: h2 :: rest) []
  | c :: rest, buf => utf8Decode buf.reverse ++ c :: unqAux rest []

/-- Name/value decoding in `parse_qsl`: `+` to space, then unquote. -/
def unquotePlus (s : Chars) : Chars := unqAux (replPlus s) []

/-- Character class of `quote_plus` output: always-safe characters,
`+`, `%`, and hex digits. -/
def isQChar (c : Char) : Bool :=
  isAlwaysSafe c || c = '+' || c = '%' || isHexDigit c

/-- The `quote_plus` encoder after the `+`-to-space replacement of
`parse_qsl` has been folded in (a space stays a space). -/
def quoteNoPlus (c : Char) : Chars :=
  if c = ' ' then [' ']
  else if isAlwaysSafe c then [c]
  else (utf8Encode c.toNat).flatMap pctEncodeByte

/-! ## Model of parse_qsl / urlencode (core/scraping/normalizer.py uses
them with keep_blank_values=True and doseq=True on string pairs) -/

/-- Model of `urllib.parse.parse_qsl(qs, keep_blank_values=True)`: split
on `&`, skip empty fragments, split each on the first `=` (a missing `=`
yields an empty value), and decode both sides. -/
def parse_qsl (qs : Chars) : List (Chars × Chars) :=
  (splitChar '&' qs).filterMap fun seg =>
    if seg.isEmpty then none
    else
      match splitFirst '=' seg with
      | some (n, v) => some (unquotePlus n, unquotePlus v)
      | none => some (unquotePlus seg, [])

/-- Model of `urllib.parse.urlencode(pairs, doseq=True)` on string
pairs: each name and value goes through `quote_plus`, joined as
`name=value` pairs with `&`. -/
def urlencode (l : List (Chars × Chars)) : Chars :=
  joinChar '&' (l.map fun p => quotePlus p.1 ++ '=' :: quotePlus p.2)

/-! ## Model of urllib.parse.urlparse / urlunparse (CPython 3.11+)

The model follows `urlsplit`: strip `\t`, `\r`, `\n`; split a scheme
(first `:` with a leading-ASCII-alpha, scheme-characters-only prefix;
lowercased); split a `//`-introduced netloc up to the first `/?#`,
raising `ValueError` (`none` here) on a netloc with an unmatched square
bracket (CPython 3.11+ additionally validates the content between
matched brackets, and `_checknetloc` rejects some non-ASCII netlocs
after NFKC normalisation; neither extra check is modelled); split the
fragment at the first `#`, then the query at the first `?`.  `urlparse`
additionally splits `;params` from the last path segment.  `urlunparse`
follows `urlunsplit` (the `/`-insertion and `//`-reintroduction rules
included). -/

/-- Components of a parsed URL (`urllib.parse.ParseResult`). -/
structure ParseResult where
  scheme : Chars
  netloc : Chars
  path : Chars
  params : Chars
  query : Chars
  fragment : Chars
deriving DecidableEq, Repr

/-- Characters permitted in a URL scheme (`scheme_chars`). -/
def isSchemeChar (c : Char) : Bool :=
  c.isAlphanum || c = '+' || c = '-' || c = '.'

/-- Test for `i > 0 and url[0].isascii() and url[0].isalpha()` plus the
scheme-characters loop of `urlsplit`, on the prefix before the colon. -/
def validScheme (pre : Chars) : Bool :=
  match pre with
  | [] => false
  | p0 :: _ => p0.isAlpha && pre.all isSchemeChar

/-- Scheme-splitting step of `urlsplit`: on success the scheme comes out
lowercased, otherwise the URL is left intact. -/
def schemeSplit (url : Chars) : Chars × Chars :=
  match splitFirst ':' url with
  | some (pre, post) =>
    if validScheme pre then (lowerL pre, post) else ([], url)
  | none => ([], url)

/-- Delimiters ending a netloc (`_splitnetloc` stops at `/?#`). -/
def netlocDelim (c : Char) : Bool := c = '/' || c = '?' || c = '#'

/-- Netloc-splitting step of `urlsplit` for URLs starting with `//`
(`_splitnetloc(url, 2)` guarded by `url[:2] == "//"`). -/
def splitNetloc (url : Chars) : Chars × Chars :=
  if leadsWith ['/', '/'] url then
    ((url.drop 2).takeWhile (fun c => !netlocDelim c),
      (url.drop 2).dropWhile (fun c => !netlocDelim c))
  else ([], url)

/-- Bracket well-formedness of a netloc: `urlsplit` raises
`ValueError("Invalid IPv6 URL")` when exactly one of `[`, `]` occurs. -/
def bracketsOk (netloc : Chars) : Bool :=
  netloc.contains '[' == netloc.contains ']'

/-- Model of the removal of `_UNSAFE_URL_BYTES_TO_REMOVE`. -/
def removeUnsafe (l : Chars) : Chars :=
  l.filter fun c => !(c = '\t' || c = '\r' || c = '\n')

/-- Model of `urllib.parse.urlsplit`; `none` models a raised
`ValueError`.  Components: scheme, netloc, path, query, fragment.
Only the unmatched-bracket `ValueError` is modelled: CPython's
`urlsplit` also raises on bracket-balanced non-IP bracketed hosts
(`_check_bracketed_host`, 3.11+) and on netlocs whose NFKC
normalisation introduces a delimiter (`_checknetloc`), where this model
returns a parse instead.  The model therefore raises on a subset of the
inputs that the program raises on: a `none` here is a raise in the
program, while a `some` here may still raise there. -/
def urlsplitM (url0 : Chars) :
    Option (Chars × Chars × Chars × Chars × Chars) :=
  let url1 := removeUnsafe url0
  let sp := schemeSplit url1
  let nl := splitNetloc sp.2
  if bracketsOk nl.1 then
    let fr := match splitFirst '#' nl.2 with
      | some (a, b) => (a, b)
      | none => (nl.2, ([] : Chars))
    let pq := match splitFirst '?' fr.1 with
      | some (a, b) => (a, b)
      | none => (fr.1, ([] : Chars))
    some (sp.1, nl.1, pq.1, pq.2, fr.2)
  else none

/-- Model of `urllib.parse._splitparams`: split `;params` off the last
path segment (an absent `;` there gives empty params). -/
def splitparams (path : Chars) : Chars × Chars :=
  if path.contains '/' then
    match splitLast '/' path with
    | some (pre, seg) =>
      match splitFirst ';' seg with
      | some (a, b) => (pre ++ '/' :: a, b)
      | none => (path, [])
    | none => (path, [])
  else
    match splitFirst ';' path with
    | some (a, b) => (a, b)
    | none => (path, [])

/-- The `path;params` composite that `urlunparse` rebuilds (`url0` in
`urlunsplit`): inverse direction of `_splitparams`. -/
def joinParams (pa pr : Chars) : Chars :=
  if pr ≠ [] then pa ++ ';' :: pr else pa

/-- The scheme-and-netloc part of `urlunsplit` on an already-joined
path (`url` after the `//`-reintroduction and `/`-insertion steps). -/
def urlBody (nl u0 : Chars) : Chars :=
  if nl ≠ [] ∨ leadsWith ['/', '/'] u0 then
    '/' :: '/' :: nl ++
      (if u0 ≠ [] ∧ u0.headD ' ' ≠ '/' then '/' :: u0 else u0)
  else u0

/-- Model of `urllib.parse.urlparse`; `none` models a raised
`ValueError`. -/
def urlparse (url : Chars) : Option ParseResult :=
  (urlsplitM url).map fun c =>
    let pp := splitparams c.2.2.1
    ⟨c.1, c.2.1, pp.1, pp.2, c.2.2.2.1, c.2.2.2.2⟩

/-- Model of `urllib.parse.urlunparse` (via `urlunsplit`). -/
def urlunparse (p : ParseResult) : Chars :=
  let url0 := if p.params ≠ [] then p.path ++ ';' :: p.params else p.path
  let url1 :=
    if p.netloc ≠ [] ∨ leadsWith ['/', '/'] url0 then
      '/' :: '/' :: p.netloc ++
        (if url0 ≠ [] ∧ url0.headD ' ' ≠ '/' then '/' :: url0 else url0)
    else url0
  let url2 := if p.scheme ≠ [] then p.scheme ++ ':' :: url1 else url1
  let url3 := if p.query ≠ [] then url2 ++ '?' :: p.query else url2
  if p.fragment ≠ [] then url3 ++ '#' :: p.fragment else url3

/-! ## Model of core/scraping/normalizer.py -/

/-- The default tracking parameters stripped by the normalizer
(`DEFAULT_REMOVE_PARAMS`). -/
def DEFAULT_REMOVE_PARAMS : List Chars :=
  ["utm_source", "utm_medium", "utm_campaign", "utm_term", "utm_content",
    "fbclid"].map String.data

/-- Model of `normalize_url` on char lists: parse, drop tracked query
parameters, re-encode the remaining query in order, drop the fragment
when `strip_fragment`, and unparse.  `none` models the `ValueError`
that `urlparse` can raise. -/
def normalize_urlL (url : Chars) (removeParams : List Chars)
    (strip_fragment : Bool) : Option Chars :=
  (urlparse url).map fun p =>
    let q := (parse_qsl p.query).filter fun kv => !removeParams.contains kv.1
    let query := urlencode q
    let fragment := if strip_fragment then [] else p.fragment
    urlunparse ⟨p.scheme, p.netloc, p.path, p.params, query, fragment⟩

/-- Lowercasing wrapper on `String` (Python `s.lower()`, ASCII part). -/
def lowerS (s : String) : String := String.mk (lowerL s.data)

/-- Model of `normalize_url(url)` with its default arguments, as called
by the link extractor.  `none` models a raised `ValueError`. -/
def normalize_url (url : String) : Option String :=
  (normalize_urlL url.data DEFAULT_REMOVE_PARAMS true).map String.mk

/-! ## Model of infer_dataset (flows/universal_downloader.py) -/

/-- Stopword set of `infer_dataset`. -/
def STOPWORDS : List Chars :=
  ["pt", "br", "www", "gov", "gov.br", "acesso", "informacao", "acoes",
    "programas", "financiamento", "conteudo", "conteudos",
    "conteudo-static", "static", "api", "search", "a", "de", "do",
    "da"].map String.data

/-- Priority tokens of `infer_dataset`. -/
def PRIORITY_TOKENS : List Chars :=
  ["fundeb", "vaat", "salario-educacao", "salario", "fnde",
    "consultas"].map String.data

/-- Model of `re.sub(r"\.[a-z0-9]2,5$", "", part, flags=re.I)` (the
brace-quantifier 1..5 is written out): strip a final dot-extension of
one to five alphanumeric characters.  The leftmost match of this
end-anchored pattern is the last dot whose suffix qualifies. -/
def stripExt (part : Chars) : Chars :=
  match splitLast '.' part with
  | some (pre, ext) =>
    if ext ≠ [] ∧ ext.length ≤ 5 ∧ ext.all Char.isAlphanum then pre
    else part
  | none => part

/-- Suffix test on char lists (Python `s.endswith(suf)`). -/
def endsWithL (suf l : Chars) : Bool := leadsWith suf.reverse l.reverse

/-- Model of `re.search(r"(^|-)pt$|(^|-)br$", part)`: the token is
exactly `pt`/`br` or ends in `-pt`/`-br`. -/
def isLangToken (part : Chars) : Bool :=
  part == "pt".data || part == "br".data ||
    endsWithL "-pt".data part || endsWithL "-br".data part

/-- Hyphen-to-underscore replacement (`t.replace("-", "_")`). -/
def hyph2under (l : Chars) : Chars :=
  l.map fun c => if c = '-' then '_' else c

/-- Per-segment token extraction of `infer_dataset`: strip extension and
digits, keep alphanumerics and hyphens, trim `-_`, lowercase; drop empty
results, pure language tokens, and segments with no meaningful subtoken;
keep the hyphenated form when several meaningful subtokens exist,
otherwise the first meaningful subtoken. -/
def tokenOfPart (part0 : Chars) : Option Chars :=
  let p1 := stripExt part0
  let p2 := p1.filter fun c => !c.isDigit
  let p3 := p2.filter fun c => c.isAlphanum || c = '-'
  let part := lowerL (stripChars ['-', '_'] p3)
  if part = [] then none
  else if isLangToken part then none
  else
    let subs := (splitChar '-' part).filter (· ≠ [])
    let meaningful := subs.filter fun s =>
      1 < s.length ∧ !STOPWORDS.contains s
    if meaningful = [] then none
    else if 1 < meaningful.length ∧ part.contains '-' then some part
    else some (meaningful.headD [])

/-- Priority test of `infer_dataset` (`any(pt.replace("-","_") == norm
for pt in priority_tokens)`). -/
def isPriorityToken (t : Chars) : Bool :=
  PRIORITY_TOKENS.any fun pt => hyph2under pt == hyph2under t

/-- Token-choice step of `infer_dataset`: order priority tokens first
(keeping token order within each group and dropping `rest` duplicates
of prioritized tokens), take the first two, normalize hyphens to
underscores, and join with an underscore. -/
def chooseDatasetTokens (tokens : List Chars) : Chars :=
  let prioritized := tokens.filter isPriorityToken
  let rest := tokens.filter fun t => !isPriorityToken t
  let ordered := prioritized ++ rest.filter fun t => !prioritized.contains t
  match (ordered.take 2).map hyph2under with
  | [c] => c
  | c0 :: c1 :: _ => c0 ++ '_' :: c1
  | [] => []

/-- Hostname fallback of `infer_dataset`: lowercase the netloc, strip
registry suffixes and `www.`, replace dots by underscores, and trim
underscores. -/
def hostFallback (netloc : Chars) : Chars :=
  let host0 := lowerL netloc
  let host1 := replaceAll ".gov.br".data [] host0
  let host2 := replaceAll ".gov".data [] host1
  let host3 := replaceAll "www.".data [] host2
  let host4 := host3.map fun c => if c = '.' then '_' else c
  stripChars ['_'] host4

/-- Job-name fallback of `infer_dataset`: the part of the job name
before the first underscore, or a fixed generic name when the job name
is absent or empty. -/
def jobFallback (job_name : Option Chars) : Chars :=
  match job_name with
  | some jn =>
    if jn ≠ [] then (splitChar '_' jn).headD [] else "generic_dataset".data
  | none => "generic_dataset".data

/-- Model of `infer_dataset(url, job_name)` on char lists.  A
`ValueError` from `urlparse` lands in the bare `except` and falls
through to the job-name fallback. -/
def infer_datasetL (url : Chars) (job_name : Option Chars) : Chars :=
  match urlparse url with
  | none => jobFallback job_name
  | some p =>
    let tokens :=
      ((splitChar '/' p.path).filter (· ≠ [])).filterMap tokenOfPart
    if tokens ≠ [] then chooseDatasetTokens tokens
    else if hostFallback p.netloc ≠ [] then hostFallback p.netloc
    else jobFallback job_name

/-- String wrapper for `infer_dataset`. -/
def infer_dataset (url : String) (job_name : Option String) : String :=
  String.mk (infer_datasetL url.data (job_name.map String.data))

/-! ## Model of the scraper plugins and registry (scrapers/) -/

/-- The keys of `source_params` that the pipeline reads.  The Python
side is an opaque `dict`; absent keys are `none`.  (An explicit `None`
value behaves like an absent key at every use site, so both are
modelled as `none`.) -/
structure SourceParams where
  dataset_name : Option String := none
  max_files : Option Int := none
  filename_contains : Option String := none
  link_text_contains : Option String := none
  hints : Option (List String) := none
  patterns : Option (List String) := none

/-- A discovered link as produced by the parser: (absolute URL, anchor
text). -/
abbrev Link := String × String

/-- Default hint of `SalarioEducacaoScraper`. -/
def salarioDefaultHint : String := "DistribuioMensalporUF"

/-- Model of `SalarioEducacaoScraper.filter_links`: keep links whose
filename or anchor text contains the hint (`params["filename_contains"]
or DEFAULT_HINT`, lowercased); per-link errors are skipped; when nothing
matches, fall back to all links. -/
def salario_filter_links (params : SourceParams) (links : List Link) :
    List String :=
  let hint := lowerS (match params.filename_contains with
    | some h => if h = "" then salarioDefaultHint else h
    | none => salarioDefaultHint)
  let selected := links.filterMap fun l =>
    match urlparse l.1.data with
    | none => none
    | some p =>
      let name := lowerL (lastSeg p.path)
      if hasSub hint.data name || hasSub hint.data (lowerL l.2.data) then
        some l.1
      else none
  if selected ≠ [] then selected else links.map (·.1)

/-- Default hints of `FundebVaatScraper`. -/
def fundebDefaultHints : List String := ["vaat", "listadefinit"]

/-- Model of `FundebVaatScraper.filter_links`: keep links matching a
hint in the filename or anchor text, or PDF filenames under a path
mentioning `vaat` (per-link errors skipped); fall back to all PDF links,
then to all links.  The two fallback list-comprehensions re-parse every
URL outside the per-link `try`, so a URL on which `urlparse` raises
makes the whole call raise (`none` here). -/
def fundeb_filter_links (params : SourceParams) (links : List Link) :
    Option (List String) :=
  let hints := (params.hints.getD fundebDefaultHints).map lowerS
  let selected := links.filterMap fun l =>
    match urlparse l.1.data with
    | none => none
    | some p =>
      let path := p.path
      let name := lowerL (lastSeg path)
      let textLower := lowerL l.2.data
      if hints.any (fun h => hasSub h.data name) ||
          hints.any (fun h => hasSub h.data textLower) then
        some l.1
      else if endsWithL ".pdf".data name ∧
          (hasSub "/vaat".data (lowerL path) ||
            hasSub "vaat/".data (lowerL path)) then
        some l.1
      else none
  if selected ≠ [] then some selected
  else
    match links.mapM fun l =>
        (urlparse l.1.data).map fun p =>
          (l.1, endsWithL ".pdf".data (lowerL p.path)) with
    | none => none
    | some flagged =>
      let pdfs := (flagged.filter (·.2)).map (·.1)
      if pdfs ≠ [] then some pdfs else some (links.map (·.1))

/-- The scraper classes the registry can select. -/
inductive ScraperKind where
  | salario
  | fundeb
  | base
deriving DecidableEq, Repr

/-- The `_REGISTRY` keys (all mapping to `SalarioEducacaoScraper`). -/
def registryDomains : List String := ["www.gov.br"]

/-- Model of `get_scraper_for_url`: exact-domain match (with a VAAT /
FUNDEB path override), then domain-suffix match, then the VAAT path
heuristic, then the no-op base scraper.  The two unguarded `urlparse`
calls make the function raise (`none`) on a URL `urlparse` rejects. -/
def get_scraper_for_url (url : String) : Option ScraperKind :=
  (urlparse url.data).map fun p =>
    let domain := lowerL p.netloc
    let path := lowerL p.path
    let vaatPath := hasSub "vaat".data path || hasSub "/fundeb/".data path
    if registryDomains.contains (String.mk domain) then
      if vaatPath then .fundeb else .salario
    else if registryDomains.any (fun k => endsWithL k.data domain) then
      .salario
    else if vaatPath then .fundeb
    else .base

/-- Dispatch of `plugin.filter_links` for the selected scraper class
(`BaseScraper.filter_links` returns every URL).  `none` models a raised
exception. -/
def scraper_filter (k : ScraperKind) (params : SourceParams)
    (links : List Link) : Option (List String) :=
  match k with
  | .salario => some (salario_filter_links params links)
  | .fundeb => fundeb_filter_links params links
  | .base => some (links.map (·.1))

/-- Follows the spec's words (for claim C1): the three-tier fallback
chain a filtering strategy must apply — primary hint-based rules; if no
link matches, all links of the source's expected resource type; if
still nothing, all links. -/
def threeTierFilter (primary isExpectedType : Link → Bool)
    (links : List Link) : List String :=
  if links.filter primary ≠ [] then (links.filter primary).map (·.1)
  else if links.filter isExpectedType ≠ [] then
    (links.filter isExpectedType).map (·.1)
  else links.map (·.1)

/-- The Salário Educação strategy's primary hint rule as a per-link
predicate (the test inside its selection loop). -/
def salarioPrimary (params : SourceParams) (l : Link) : Bool :=
  let hint := lowerS (match params.filename_contains with
    | some h => if h = "" then salarioDefaultHint else h
    | none => salarioDefaultHint)
  match urlparse l.1.data with
  | none => false
  | some p =>
    hasSub hint.data (lowerL (lastSeg p.path)) ||
      hasSub hint.data (lowerL l.2.data)

/-- PDF test for the spec's middle fallback tier: the link's URL path
ends in `.pdf`. -/
def isPdfLink (l : Link) : Bool :=
  match urlparse l.1.data with
  | none => false
  | some p => endsWithL ".pdf".data (lowerL p.path)

/-! ## Model of the link extractor (core/scraping/parser.py)

`BeautifulSoup` anchor discovery is abstracted as the input list of
(href, text) pairs of anchors that carry an `href`; the composition
`normalize_url(urljoin(base_url, href))` together with its surrounding
`try`/`except` is abstracted as a resolution oracle returning `none`
when that code raises.  The deduplication logic is modelled exactly. -/

/-- Model of Python `s.strip()` (whitespace trim at both ends). -/
def pyStrip (s : String) : String :=
  String.mk
    ((s.data.dropWhile Char.isWhitespace).reverse.dropWhile
      Char.isWhitespace).reverse

/-- Order-preserving deduplication by URL with a seen-set, keeping the
first-seen pair (the loop at the end of `extract_links_from_html`). -/
def dedupLinks : List String → List Link → List Link
  | _, [] => []
  | seen, l :: rest =>
    if seen.contains l.1 then dedupLinks seen rest
    else l :: dedupLinks (l.1 :: seen) rest

/-- Model of `extract_links_from_html`: resolve and normalize each
anchor (skipping those on which resolution raises), strip the anchor
text, then deduplicate by normalized URL preserving first-seen order. -/
def extract_links_from_html (resolve : String → Option String)
    (anchors : List (String × String)) : List Link :=
  let results := anchors.filterMap fun a =>
    (resolve a.1).map fun u => (u, pyStrip a.2)
  dedupLinks [] results

/-! ## Model of the PDF processor (services/pdf_processor.py)

`pdfplumber` page extraction is abstracted as the list of per-page
table lists (`page.extract_tables()` raising, or returning `None` or
`[]`, all land in the `if not tables: continue` branch and are modelled
as an empty page).  A table is a list of rows of cells.  The
`pd.DataFrame(table[1:], columns=table[0])` call succeeds when every
remaining row has exactly as many cells as the first row; on an empty
table (`IndexError`) or a width mismatch (`ValueError`) the fallback
`pd.DataFrame(table)` keeps all rows as data with positional columns. -/

abbrev PyTable := List (List String)

/-- A pandas DataFrame as far as the pipeline observes it: an optional
header row plus data rows. -/
structure DataFrame where
  header : Option (List String)
  rows : List (List String)
deriving DecidableEq, Repr

/-- Model of the per-table DataFrame construction with header-candidate
fallback. -/
def mkDF (table : PyTable) : DataFrame :=
  match table with
  | [] => ⟨none, []⟩
  | hd :: tl =>
    if tl.all fun r => r.length = hd.length then ⟨some hd, tl⟩
    else ⟨none, table⟩

/-- Model of `extract_tables_from_pdf`: iterate the pages, skip pages
without tables, and convert every table of every page. -/
def extract_tables_from_pdf (pages : List (List PyTable)) :
    List DataFrame :=
  pages.foldl
    (fun dfs tables =>
      if tables.isEmpty then dfs else dfs ++ tables.map mkDF)
    []

/-- Model of the filenames produced by `write_dfs_to_parquet`: with more
than one DataFrame the index is suffixed, otherwise the base name is
used as is.  (The parquet serialization itself is I/O and not
modelled; the function returns the output paths.) -/
def write_dfs_to_parquet (dfs : List DataFrame) (out_dir : String)
    (base_name : String) : List String :=
  (List.range dfs.length).map fun i =>
    let fname :=
      if 1 < dfs.length then
        base_name ++ "__table" ++ toString i ++ ".parquet"
      else base_name ++ ".parquet"
    out_dir ++ "/" ++ fname

/-- Model of `os.path.basename` for POSIX paths. -/
def basenameS (p : String) : String := String.mk (lastSeg p.data)

/-- Model of the root part of `os.path.splitext` on a basename: split at
the last dot unless every character before it is a dot. -/
def splitextRoot (name : String) : String :=
  match splitLast '.' name.data with
  | some (pre, _) => if pre.all (· = '.') then name else String.mk pre
  | none => name

/-- Model of `re.search(r"(20\d2)", name)` (the brace-quantifier 2 is
written out): the first `20dd` digit run, if any. -/
def findYear : Chars → Option Chars
  | '2' :: '0' :: d1 :: d2 :: rest =>
    if d1.isDigit ∧ d2.isDigit then some ['2', '0', d1, d2]
    else findYear ('0' :: d1 :: d2 :: rest)
  | _ :: rest => findYear rest
  | [] => none

/-- Model of `s.rstrip("/")`. -/
def rstripSlash (s : String) : String :=
  String.mk (s.data.reverse.dropWhile (· = '/')).reverse

/-- Model of `os.path.join` for the relative POSIX path pieces the
processor builds (no piece is absolute; the leading piece is already
stripped of a trailing slash). -/
def joinPath (parts : List String) : String :=
  String.intercalate "/" parts

/-- Execution date components the processor takes from
`datetime.utcnow()` (ambient time, passed explicitly here). -/
structure CaptureDate where
  capture_str : String
  year : String
  month : String

/-- Storage oracle for the processor: file existence and
`GCSUploader.upload_file(bucket, local_path, blob_name)`, `none`
modelling a raised upload error. -/
structure UploadEnv where
  fileExists : String → Bool
  upload_file : String → String → String → Option String

/-- Staging-prefix computation of `process_pdf_and_upload`: replace
every `/raw` by `/staging`, else rewrite a trailing `raw`, else append
`/staging`; finally strip trailing slashes. -/
def stagingPrefixOf (sp0 : String) : String :=
  let sp1 :=
    if strContains sp0 "/raw" then
      String.mk (replaceAll "/raw".data "/staging".data sp0.data)
    else if endsWithL "raw".data sp0.data then
      String.mk (sp0.data.dropLast.dropLast.dropLast) ++ "staging"
    else rstripSlash sp0 ++ "/staging"
  rstripSlash sp1

/-- Year used in the blob partitions: the first `20dd` run of the
filename when present, else the capture year. -/
def yearOf (now : CaptureDate) (pdf_path : String) : String :=
  match findYear (basenameS pdf_path).data with
  | some y => String.mk y
  | none => now.year

/-- The raw prefix after the optional dataset subfolder is joined. -/
def effectivePrefix (pfx0 : String) (dataset_name : Option String) :
    String :=
  match dataset_name with
  | some ds => if ds ≠ "" then pfx0 ++ "/" ++ ds else pfx0
  | none => pfx0

/-- Blob name for the staging copy of the original PDF. -/
def stagingBlobName (now : CaptureDate) (pdf_path pfx0 : String)
    (dataset_name staging_pfx : Option String) : String :=
  let pfx := effectivePrefix pfx0 dataset_name
  let sp0 := match staging_pfx with
    | some s => if s ≠ "" then s else pfx
    | none => pfx
  joinPath [stagingPrefixOf sp0, "data_captura=" ++ now.capture_str,
    "year=" ++ yearOf now pdf_path, basenameS pdf_path]

/-- Blob name for the raw copy of the original PDF (the zero-tables
fallback; note it has no month partition). -/
def rawPdfBlobName (now : CaptureDate) (pdf_path pfx0 : String)
    (dataset_name : Option String) : String :=
  joinPath [effectivePrefix pfx0 dataset_name,
    "data_captura=" ++ now.capture_str, "year=" ++ yearOf now pdf_path,
    basenameS pdf_path]

/-- Blob name for an uploaded parquet file (partitioned by capture
date, year and month). -/
def parquetBlobName (now : CaptureDate) (pdf_path pfx0 : String)
    (dataset_name : Option String) (parquet_path : String) : String :=
  joinPath [effectivePrefix pfx0 dataset_name,
    "data_captura=" ++ now.capture_str, "year=" ++ yearOf now pdf_path,
    "month=" ++ now.month, basenameS parquet_path]

/-- Model of `process_pdf_and_upload`.  `pages` stands for the tables
`pdfplumber` finds in the downloaded PDF; `tmpdir` is the name of the
temporary directory the parquet files are written into; `pfx0` is the
`prefix` argument.  `.error` models a raised exception.  The
`remove_local_pdf` cleanup is a filesystem effect with no influence on
the result and is not modelled. -/
def process_pdf_and_upload (env : UploadEnv) (now : CaptureDate)
    (tmpdir : String) (pages : List (List PyTable)) (pdf_path : String)
    (bucket : String) (pfx0 : String) (dataset_name : Option String)
    (staging_pfx : Option String) : Except String (List String) :=
  if ¬(pdf_path ≠ "" ∧ env.fileExists pdf_path) then
    .error "PDF not found"
  else
    match env.upload_file bucket pdf_path
        (stagingBlobName now pdf_path pfx0 dataset_name staging_pfx) with
    | none => .error "staging upload failed"
    | some staging_uri =>
      let dfs := extract_tables_from_pdf pages
      if dfs ≠ [] then
        let out_paths :=
          write_dfs_to_parquet dfs tmpdir (splitextRoot (basenameS pdf_path))
        let uploads := out_paths.mapM fun pl =>
          env.upload_file bucket pl
            (parquetBlobName now pdf_path pfx0 dataset_name pl)
        match uploads with
        | none => .error "parquet upload failed"
        | some uploaded => .ok (staging_uri :: uploaded)
      else
        match env.upload_file bucket pdf_path
            (rawPdfBlobName now pdf_path pfx0 dataset_name) with
        | none => .error "raw pdf upload failed"
        | some uri => .ok [staging_uri, uri]

/-! ## Model of the configuration contract (core/config.py)

Pydantic type validation is modelled as field presence; the
`execution_date` default (ambient current date) and the unused
`raw_path` property are not consulted by the flow and are omitted. -/

/-- A raw `config_dict` as passed to the flow: every field may be
missing. -/
structure RawConfig where
  job_name : Option String := none
  environment : Option String := none
  source_type : Option String := none
  source_url : Option String := none
  source_params : Option SourceParams := none
  destination_bucket : Option String := none
  destination_path : Option String := none

/-- A validated `PipelineConfig`. -/
structure PipelineConfig where
  job_name : String
  environment : String
  source_type : String
  source_url : String
  source_params : SourceParams
  destination_bucket : String
  destination_path : String

/-- The `environment` pattern `^(dev|staging|prod)$`. -/
def validEnvironment (e : String) : Bool :=
  e == "dev" || e == "staging" || e == "prod"

/-- Model of `PipelineConfig(**config_dict)`: required fields must be
present, `environment` defaults to `dev` and must match its pattern,
and `job_name_must_be_slug` rejects any space and lowercases the
name. -/
def PipelineConfig.validate (raw : RawConfig) :
    Except String PipelineConfig :=
  match raw.job_name, raw.source_type, raw.source_url,
      raw.destination_bucket, raw.destination_path with
  | some jn, some st, some su, some db, some dp =>
    let env := raw.environment.getD "dev"
    if ¬validEnvironment env then
      .error "environment does not match pattern"
    else if jn.data.contains ' ' then
      .error "job_name must not contain spaces"
    else
      .ok ⟨lowerS jn, env, st, su, raw.source_params.getD {}, db, dp⟩
  | _, _, _, _, _ => .error "missing required field"

/-! ## Model of universal_download_flow (flows/universal_downloader.py)

External effects are an oracle environment, and every network operation
the flow performs is recorded in an event trace: fetching and link
extraction for the source page (`fetch_html_task` plus
`extract_links_task`), the per-candidate
`download_and_process_task` (its internal download/staging/raw-upload
steps are the `process_pdf_and_upload` model above), and the
`metadata.json` upload.  The `destination_bucket`/`destination_path`
defaulting (`or "br-doug-dev"` / `or "datalake/raw"`) only shapes the
arguments the oracles close over and is absorbed into them.  The
manifest's `downloaded_at` field is ambient UTC time and is not
modelled. -/

/-- The manifest (`metadata.json`) content the flow serializes: the
job name and the list of uploaded per-candidate URIs. -/
structure Manifest where
  job : String
  files : List String
deriving DecidableEq, Repr

/-- Network operations the flow can perform. -/
inductive NetEvent where
  | fetchHtml (url : String)
  | downloadProcess (url : String)
  | metaUpload (m : Manifest)
deriving DecidableEq, Repr

/-- Oracle environment of the flow: `page` is the link list obtained by
fetching the source page and extracting its anchors; `process` is the
result of `download_and_process_task` for a candidate URL and dataset
name (`none` models a raised exception, caught per candidate);
`metaUploadResult` is the URI of the metadata upload (`none` models a
raised upload error, caught). -/
structure FlowEnv where
  page : String → List Link
  process : String → String → Option (List String)
  metaUploadResult : Manifest → Option String

/-- Truthiness check on `source_params.get("dataset_name")`: an absent
key and an empty string are both falsy. -/
def datasetOverride (p : SourceParams) : Option String :=
  match p.dataset_name with
  | some s => if s = "" then none else some s
  | none => none

/-- Model of the optional `filename_contains` / `link_text_contains`
post-filtering of the flow: when either hint is set and something was
selected, keep matching URLs, but only adopt the filtered list if it is
non-empty. -/
def postFilter (p : SourceParams) (links : List Link)
    (selected : List String) : List String :=
  let fc := lowerS (p.filename_contains.getD "")
  let ltc := lowerS (p.link_text_contains.getD "")
  if (fc ≠ "" ∨ ltc ≠ "") ∧ selected ≠ [] then
    let filtered := selected.filter fun u =>
      (fc ≠ "" ∧ strContains (lowerS u) fc) ∨
        (ltc ≠ "" ∧ strContains (lowerS ((links.lookup u).getD "")) ltc)
    if filtered ≠ [] then filtered else selected
  else selected

/-- Model of the `max_files` truncation (`max_files and isinstance(..,
int) and max_files > 0`). -/
def applyMaxFiles (mf : Option Int) (selected : List String) :
    List String :=
  match mf with
  | some n => if 0 < n then selected.take n.toNat else selected
  | none => selected

/-- Per-candidate loop of the flow: compute the dataset name
(`dataset_override or infer_dataset(url, job_name)`), run the
download-and-process task, treat a raised exception as an empty
contribution, and extend the uploaded list. -/
def runCandidates (env : FlowEnv) (config : PipelineConfig)
    (datasetOv : Option String) (urls : List String) :
    List String × List NetEvent :=
  urls.foldl
    (fun acc url =>
      (acc.1 ++
          (env.process url
            (datasetOv.getD (infer_dataset url (some config.job_name)))).getD [],
        acc.2 ++ [NetEvent.downloadProcess url]))
    ([], [])

/-- Metadata step of the flow: when anything was uploaded, build the
manifest (with the per-candidate URI list), upload it, and prepend its
URI to the returned list when the upload succeeded. -/
def finalizeFlow (env : FlowEnv) (config : PipelineConfig)
    (downloaded : List String) (evs : List NetEvent) :
    Except String (List String) × List NetEvent :=
  if downloaded ≠ [] then
    let meta : Manifest := ⟨config.job_name, downloaded⟩
    match env.metaUploadResult meta with
    | some uri => (.ok (uri :: downloaded), evs ++ [.metaUpload meta])
    | none => (.ok downloaded, evs ++ [.metaUpload meta])
  else (.ok downloaded, evs)

/-- Discovery part of the generic path: a source URL ending in `.pdf`
is processed directly (and yields no links); otherwise the page is
fetched and its links extracted.  Returns (already-uploaded URIs,
discovered links, events). -/
def flowStart (env : FlowEnv) (config : PipelineConfig) (dso : String) :
    List String × List Link × List NetEvent :=
  if endsWithL ".pdf".data (lowerS config.source_url).data then
    let dataset := (some dso).getD
      (infer_dataset config.source_url (some config.job_name))
    (((env.process config.source_url dataset).getD []), [],
      [NetEvent.downloadProcess config.source_url])
  else
    ([], env.page config.source_url,
      [NetEvent.fetchHtml config.source_url])

/-- Selection and per-candidate processing of the generic path: plugin
filtering (a raised `filter_links` falls back to all links), the
optional post-filter, the `max_files` limit, then the candidate loop. -/
def flowSelectAndRun (env : FlowEnv) (config : PipelineConfig)
    (dso : String) (k : ScraperKind) (links : List Link) :
    List String × List NetEvent :=
  runCandidates env config (some dso)
    (applyMaxFiles config.source_params.max_files
      (postFilter config.source_params links
        ((scraper_filter k config.source_params links).getD
          (links.map (·.1)))))

/-- The whole candidate phase of the generic path: the per-candidate
URI list and the network events it produced. -/
def flowCandidatePhase (env : FlowEnv) (config : PipelineConfig)
    (dso : String) (k : ScraperKind) : List String × List NetEvent :=
  ((flowStart env config dso).1 ++
      (flowSelectAndRun env config dso k (flowStart env config dso).2.1).1,
    (flowStart env config dso).2.2 ++
      (flowSelectAndRun env config dso k (flowStart env config dso).2.1).2)

/-- Model of `universal_download_flow(config_dict)`.  On the
non-generic path the `get_extractor` shim always raises, the exception
is caught and the flow returns the empty list early.  On the generic
path a source URL ending in `.pdf` is processed directly (the plugin
then filters the empty link list, selecting nothing further); otherwise
the page is fetched, links are extracted, the registry plugin filters
them (a raised `filter_links` falls back to all links), the optional
post-filter and `max_files` limit apply, and each candidate is
processed.  The unguarded `get_scraper_for_url` call propagates a
`ValueError` from `urlparse`. -/
def universal_download_flow (env : FlowEnv) (config_dict : RawConfig) :
    Except String (List String) × List NetEvent :=
  match PipelineConfig.validate config_dict with
  | .error e => (.error e, [])
  | .ok config =>
    match datasetOverride config.source_params with
    | none =>
      (.error "Missing required parameter: dataset_name", [])
    | some dso =>
      if config.source_type ≠ "generic" then (.ok [], [])
      else
        match get_scraper_for_url config.source_url with
        | none =>
          (.error "Invalid IPv6 URL", (flowStart env config dso).2.2)
        | some k =>
          finalizeFlow env config (flowCandidatePhase env config dso k).1
            (flowCandidatePhase env config dso k).2

/-! # Theorems -/

/-! ## Lemmas about the link-extractor deduplication -/

theorem dedupLinks_cons_mem (seen : List String) (hd : Link)
    (tl : List Link) (hs : hd.1 ∈ seen) :
    dedupLinks seen (hd :: tl) = dedupLinks seen tl := by
  simp [dedupLinks, hs]

theorem dedupLinks_cons_not_mem (seen : List String) (hd : Link)
    (tl : List Link) (hs : hd.1 ∉ seen) :
    dedupLinks seen (hd :: tl) = hd :: dedupLinks (hd.1 :: seen) tl := by
  simp [dedupLinks, hs]

theorem dedupLinks_keys_not_seen (seen : List String) (l : List Link) :
    ∀ u ∈ (dedupLinks seen l).map Prod.fst, u ∉ seen := by
  induction l generalizing seen with
  | nil => simp [dedupLinks]
  | cons hd tl ih =>
    intro u hu
    by_cases hs : hd.1 ∈ seen
    · exact ih seen u (by simpa [dedupLinks_cons_mem seen hd tl hs] using hu)
    · rw [dedupLinks_cons_not_mem seen hd tl hs] at hu
      simp only [List.map_cons, List.mem_cons] at hu
      rcases hu with rfl | hu
      · exact hs
      · have := ih (hd.1 :: seen) u hu
        intro hmem
        exact this (List.mem_cons_of_mem _ hmem)

theorem dedupLinks_keys_nodup (seen : List String) (l : List Link) :
    ((dedupLinks seen l).map Prod.fst).Nodup := by
  induction l generalizing seen with
  | nil => simp [dedupLinks]
  | cons hd tl ih =>
    by_cases hs : hd.1 ∈ seen
    · simpa [dedupLinks_cons_mem seen hd tl hs] using ih seen
    · rw [dedupLinks_cons_not_mem seen hd tl hs]
      simp only [List.map_cons, List.nodup_cons]
      refine ⟨fun hmem => ?_, ih (hd.1 :: seen)⟩
      exact dedupLinks_keys_not_seen (hd.1 :: seen) tl hd.1 hmem
        (List.mem_cons_self _ _)

theorem dedupLinks_sublist (seen : List String) (l : List Link) :
    (dedupLinks seen l).Sublist l := by
  induction l generalizing seen with
  | nil => simp [dedupLinks]
  | cons hd tl ih =>
    by_cases hs : hd.1 ∈ seen
    · rw [dedupLinks_cons_mem seen hd tl hs]
      exact (ih seen).cons hd
    · rw [dedupLinks_cons_not_mem seen hd tl hs]
      exact (ih (hd.1 :: seen)).cons₂ hd

theorem dedupLinks_lookup (seen : List String) (l : List Link)
    (u : String) (t : String) (h : (u, t) ∈ dedupLinks seen l) :
    u ∉ seen ∧ l.lookup u = some t := by
  induction l generalizing seen with
  | nil => simp [dedupLinks] at h
  | cons hd tl ih =>
    by_cases hs : hd.1 ∈ seen
    · rw [dedupLinks_cons_mem seen hd tl hs] at h
      obtain ⟨hns, hl⟩ := ih seen h
      refine ⟨hns, ?_⟩
      have hne : (u == hd.1) = false := by
        by_cases q : u = hd.1
        · exact absurd (q ▸ hs) hns
        · simpa using q
      cases hd with
      | mk k v =>
        simp only [List.lookup]
        simp only [List.lookup] at hne
        rw [hne]
        exact hl
    · rw [dedupLinks_cons_not_mem seen hd tl hs] at h
      rcases List.mem_cons.mp h with heq | h
      · have : hd = (u, t) := heq.symm
        subst this
        exact ⟨hs, by simp [List.lookup]⟩
      · obtain ⟨hns, hl⟩ := ih (hd.1 :: seen) h
        have hnu : u ≠ hd.1 := fun q => hns (q ▸ List.mem_cons_self _ _)
        refine ⟨fun q => hns (List.mem_cons_of_mem _ q), ?_⟩
        cases hd with
        | mk k v =>
          simp only [List.lookup]
          have hne : (u == k) = false := by simpa using hnu
          rw [hne]
          exact hl

theorem dedupLinks_keys_complete (seen : List String) (l : List Link)
    (u : String) (hu : u ∈ l.map Prod.fst) (hns : u ∉ seen) :
    u ∈ (dedupLinks seen l).map Prod.fst := by
  induction l generalizing seen with
  | nil => simp at hu
  | cons hd tl ih =>
    simp only [List.map_cons, List.mem_cons] at hu
    by_cases hs : hd.1 ∈ seen
    · rw [dedupLinks_cons_mem seen hd tl hs]
      rcases hu with rfl | hu
      · exact absurd hs hns
      · exact ih seen hu hns
    · rw [dedupLinks_cons_not_mem seen hd tl hs]
      simp only [List.map_cons, List.mem_cons]
      rcases hu with rfl | hu
      · exact Or.inl rfl
      · by_cases q : u = hd.1
        · exact Or.inl q
        · refine Or.inr (ih (hd.1 :: seen) hu ?_)
          intro hmem
          rcases List.mem_cons.mp hmem with h1 | h1
          · exact q h1
          · exact hns h1

/-- C6: for every resolution oracle and anchor list, the link-extractor
output has no two pairs with the same normalized URL, is an
order-preserving sublist of the resolved anchors, associates each URL
with the anchor text of its first occurrence, covers exactly the URLs
that occur among the resolved anchors, and an anchor whose resolution
raises is skipped without affecting the rest of the extraction. -/
theorem C6_link_extractor_dedup (resolve : String → Option String)
    (anchors : List (String × String)) :
    ((extract_links_from_html resolve anchors).map Prod.fst).Nodup ∧
    (extract_links_from_html resolve anchors).Sublist
      (anchors.filterMap fun a =>
        (resolve a.1).map fun u => (u, pyStrip a.2)) ∧
    (∀ u t, (u, t) ∈ extract_links_from_html resolve anchors →
      (anchors.filterMap fun a =>
        (resolve a.1).map fun u2 => (u2, pyStrip a.2)).lookup u = some t) ∧
    (∀ u, u ∈ (anchors.filterMap fun a =>
        (resolve a.1).map fun u2 => (u2, pyStrip a.2)).map Prod.fst ↔
      u ∈ (extract_links_from_html resolve anchors).map Prod.fst) ∧
    (∀ href text, resolve href = none →
      extract_links_from_html resolve ((href, text) :: anchors) =
        extract_links_from_html resolve anchors) := by
  refine ⟨dedupLinks_keys_nodup _ _, dedupLinks_sublist _ _,
    fun u t h => (dedupLinks_lookup _ _ u t h).2, fun u => ?_,
    fun href text hnone => ?_⟩
  · constructor
    · intro hu
      exact dedupLinks_keys_complete [] _ u hu (by simp)
    · intro hu
      exact ((dedupLinks_sublist [] _).map Prod.fst).subset hu
  · simp [extract_links_from_html, List.filterMap_cons, hnone]

/-- Witness for C6 at a concrete oracle and anchor list: the duplicate
URL keeps its first anchor text and the malformed anchor is skipped. -/
theorem C6_link_extractor_dedup_witness :
    extract_links_from_html
      (fun h => if h = "bad" then none else some h)
      [("u1", " A "), ("bad", "B"), ("u1", "C"), ("u2", "D")] =
      [("u1", "A"), ("u2", "D")] ∧
    (([("u1", "A"), ("u2", "D")] : List Link).map Prod.fst).Nodup := by
  have h := C6_link_extractor_dedup
    (fun h => if h = "bad" then none else some h)
    [("u1", " A "), ("bad", "B"), ("u1", "C"), ("u2", "D")]
  refine ⟨by decide, ?_⟩
  have hout : extract_links_from_html
      (fun h => if h = "bad" then none else some h)
      [("u1", " A "), ("bad", "B"), ("u1", "C"), ("u2", "D")] =
      [("u1", "A"), ("u2", "D")] := by decide
  exact hout ▸ h.1

/-! ## PDF table extraction (C4) and zero-table upload shape (C3) -/

theorem extract_tables_foldl (pages : List (List PyTable))
    (acc : List DataFrame) :
    pages.foldl
      (fun dfs tables =>
        if tables.isEmpty then dfs else dfs ++ tables.map mkDF)
      acc = acc ++ pages.flatten.map mkDF := by
  induction pages generalizing acc with
  | nil => simp
  | cons p ps ih =>
    simp only [List.foldl_cons, ih]
    by_cases hp : p.isEmpty
    · have : p = [] := List.isEmpty_iff.mp hp
      subst this
      simp
    · simp [hp, List.flatten_cons, List.append_assoc]

/-- C4 counterexample: a document with two extracted tables in which
the second table also has its first row consumed as a header candidate
(its header is set and its first row is not kept as data), contradicting
the claim that only the very first table is header-processed. -/
theorem C4_counterexample :
    (extract_tables_from_pdf
        [[[["a", "b"], ["1", "2"]], [["c", "d"], ["3", "4"]]]]).length
      = 2 ∧
    ((extract_tables_from_pdf
        [[[["a", "b"], ["1", "2"]], [["c", "d"], ["3", "4"]]]]).getD 1
        ⟨none, []⟩).header = some ["c", "d"] ∧
    ((extract_tables_from_pdf
        [[[["a", "b"], ["1", "2"]], [["c", "d"], ["3", "4"]]]]).getD 1
        ⟨none, []⟩).rows = [["3", "4"]] := by
  decide

/-- C4 amended: every table of every page — not only the first table of
the document — is converted with the same header-candidate rule: the
pages' tables are flattened in order and each goes through `mkDF`,
which treats the table's first row as its header exactly when every
remaining row has the first row's width. -/
theorem C4_every_table_header_candidate (pages : List (List PyTable)) :
    extract_tables_from_pdf pages = pages.flatten.map mkDF := by
  simpa [extract_tables_from_pdf] using extract_tables_foldl pages []

/-- C3: when zero tables are extracted across all pages and the two
uploads succeed, the per-candidate result is exactly the staging URI of
the original PDF followed by its raw-copy URI — no parquet URIs. -/
theorem C3_zero_tables_uploads (env : UploadEnv) (now : CaptureDate)
    (tmpdir : String) (pages : List (List PyTable))
    (pdf_path bucket pfx0 : String)
    (dataset_name staging_pfx : Option String) (s r : String)
    (hdfs : extract_tables_from_pdf pages = [])
    (hpath : pdf_path ≠ "") (hexists : env.fileExists pdf_path = true)
    (hstag : env.upload_file bucket pdf_path
      (stagingBlobName now pdf_path pfx0 dataset_name staging_pfx) =
        some s)
    (hraw : env.upload_file bucket pdf_path
      (rawPdfBlobName now pdf_path pfx0 dataset_name) = some r) :
    process_pdf_and_upload env now tmpdir pages pdf_path bucket pfx0
      dataset_name staging_pfx = .ok [s, r] := by
  simp only [process_pdf_and_upload, hpath, hexists, hstag, hraw, hdfs,
    ne_eq, not_true_eq_false, not_false_iff, and_true, if_neg,
    if_false, not_not]

/-- Witness for C3 at a concrete environment and PDF. -/
theorem C3_zero_tables_uploads_witness :
    process_pdf_and_upload
      ⟨fun _ => true, fun b _l k => some ("gs://" ++ b ++ "/" ++ k)⟩
      ⟨"20260101", "2026", "01"⟩ "/t" [[]] "/d/file.pdf" "bkt"
      "datalake/raw" (some "ds1") none =
      .ok ["gs://bkt/datalake/staging/ds1/data_captura=20260101/year=2026/file.pdf",
        "gs://bkt/datalake/raw/ds1/data_captura=20260101/year=2026/file.pdf"] := by
  exact C3_zero_tables_uploads
    ⟨fun _ => true, fun b _l k => some ("gs://" ++ b ++ "/" ++ k)⟩
    ⟨"20260101", "2026", "01"⟩ "/t" [[]] "/d/file.pdf" "bkt"
    "datalake/raw" (some "ds1") none _ _ (by decide) (by decide)
    (by decide) (by rfl) (by rfl)

/-! ## Flow lemmas and the flow claims (C2, C5, C10) -/

theorem validate_ok_fields (raw : RawConfig) (config : PipelineConfig)
    (h : PipelineConfig.validate raw = .ok config) :
    config.source_params = raw.source_params.getD {} := by
  unfold PipelineConfig.validate at h
  cases hj : raw.job_name with
  | none => rw [hj] at h; simp at h
  | some jn =>
    cases ht : raw.source_type with
    | none => rw [hj, ht] at h; simp at h
    | some st =>
      cases hu : raw.source_url with
      | none => rw [hj, ht, hu] at h; simp at h
      | some su =>
        cases hb : raw.destination_bucket with
        | none => rw [hj, ht, hu, hb] at h; simp at h
        | some db =>
          cases hp : raw.destination_path with
          | none => rw [hj, ht, hu, hb, hp] at h; simp at h
          | some dp =>
            rw [hj, ht, hu, hb, hp] at h
            simp only at h
            split_ifs at h
            cases h
            rfl

theorem runCandidates_foldl_events (env : FlowEnv)
    (config : PipelineConfig) (ds : Option String) (urls : List String)
    (a : List String) (b : List NetEvent) :
    (urls.foldl
      (fun acc url =>
        (acc.1 ++
            (env.process url
              (ds.getD (infer_dataset url (some config.job_name)))).getD [],
          acc.2 ++ [NetEvent.downloadProcess url]))
      (a, b)).2 = b ++ urls.map NetEvent.downloadProcess := by
  induction urls generalizing a b with
  | nil => simp
  | cons u us ih =>
    rw [List.foldl_cons, ih]
    simp

theorem runCandidates_events (env : FlowEnv) (config : PipelineConfig)
    (ds : Option String) (urls : List String) :
    (runCandidates env config ds urls).2 =
      urls.map NetEvent.downloadProcess := by
  simpa [runCandidates] using
    runCandidates_foldl_events env config ds urls [] []

theorem runCandidates_foldl_all_fail (env : FlowEnv)
    (config : PipelineConfig) (ds : Option String) (urls : List String)
    (a : List String) (b : List NetEvent)
    (hfail : ∀ u d, env.process u d = none) :
    (urls.foldl
      (fun acc url =>
        (acc.1 ++
            (env.process url
              (ds.getD (infer_dataset url (some config.job_name)))).getD [],
          acc.2 ++ [NetEvent.downloadProcess url]))
      (a, b)).1 = a := by
  induction urls generalizing a b with
  | nil => simp
  | cons u us ih =>
    rw [List.foldl_cons]
    rw [show (env.process u
        (ds.getD (infer_dataset u (some config.job_name)))).getD [] =
        [] by rw [hfail]; rfl]
    rw [List.append_nil]
    exact ih _ _

/-- C2: a job configuration whose `source_params` lack a (truthy)
`dataset_name` entry makes the flow raise before any network operation:
the result is an error and the event trace is empty (no fetch, no
download, no upload). -/
theorem C2_missing_dataset_no_network (env : FlowEnv) (raw : RawConfig)
    (h : datasetOverride (raw.source_params.getD {}) = none) :
    (∃ e, (universal_download_flow env raw).1 = .error e) ∧
    (universal_download_flow env raw).2 = [] := by
  unfold universal_download_flow
  cases hv : PipelineConfig.validate raw with
  | error e => exact ⟨⟨e, rfl⟩, rfl⟩
  | ok config =>
    have hsp := validate_ok_fields raw config hv
    rw [← hsp] at h
    simp only [h]
    exact ⟨⟨_, rfl⟩, trivial⟩

/-- Witness for C2: a fully-populated configuration that only lacks
`dataset_name` is rejected with an empty network trace. -/
theorem C2_missing_dataset_no_network_witness :
    (∃ e, (universal_download_flow
      ⟨fun _ => [("https://www.gov.br/x/a.pdf", "A")],
        fun u _ => some ["gs://b/" ++ u], fun m => some m.job⟩
      { job_name := some "J1", source_type := some "generic",
        source_url := some "https://www.gov.br/x/page",
        source_params := some { max_files := some 3 },
        destination_bucket := some "b",
        destination_path := some "p" }).1 = .error e) ∧
    (universal_download_flow
      ⟨fun _ => [("https://www.gov.br/x/a.pdf", "A")],
        fun u _ => some ["gs://b/" ++ u], fun m => some m.job⟩
      { job_name := some "J1", source_type := some "generic",
        source_url := some "https://www.gov.br/x/page",
        source_params := some { max_files := some 3 },
        destination_bucket := some "b",
        destination_path := some "p" }).2 = [] := by
  exact C2_missing_dataset_no_network _ _ (by rfl)

/-- C5: for a validated job that reaches candidate selection (dataset
name present, plugin resolvable) in which every candidate
download-process attempt fails, the flow returns the empty file list
without raising, and no metadata object is uploaded. -/
theorem C5_all_candidates_fail_clean (env : FlowEnv) (raw : RawConfig)
    (config : PipelineConfig) (dso : String) (k : ScraperKind)
    (hv : PipelineConfig.validate raw = .ok config)
    (hds : datasetOverride config.source_params = some dso)
    (hk : get_scraper_for_url config.source_url = some k)
    (hfail : ∀ u d, env.process u d = none) :
    (universal_download_flow env raw).1 = .ok [] ∧
    ∀ m, NetEvent.metaUpload m ∉ (universal_download_flow env raw).2 := by
  have hrc : ∀ urls, (runCandidates env config (some dso) urls).1 = [] :=
    fun urls => by
      simpa [runCandidates] using
        runCandidates_foldl_all_fail env config (some dso) urls [] [] hfail
  have hphase1 : (flowCandidatePhase env config dso k).1 = [] := by
    unfold flowCandidatePhase flowSelectAndRun
    rw [hrc]
    rw [List.append_nil]
    unfold flowStart
    by_cases hpdf : endsWithL ".pdf".data (lowerS config.source_url).data
    · simp [hpdf, hfail]
    · simp [hpdf]
  have hphase2 : ∀ m, NetEvent.metaUpload m ∉
      (flowCandidatePhase env config dso k).2 := by
    intro m hm
    unfold flowCandidatePhase flowSelectAndRun at hm
    rw [runCandidates_events] at hm
    unfold flowStart at hm
    by_cases hpdf : endsWithL ".pdf".data (lowerS config.source_url).data
    · simp [hpdf] at hm
    · simp [hpdf] at hm
  unfold universal_download_flow
  simp only [hv, hds]
  by_cases hgen : config.source_type ≠ "generic"
  · rw [if_pos hgen]
    exact ⟨rfl, by simp⟩
  · rw [if_neg hgen]
    simp only [hk]
    refine ⟨?_, ?_⟩
    · rw [hphase1]
      simp [finalizeFlow]
    · intro m
      rw [hphase1]
      simp only [finalizeFlow, ne_eq, not_true_eq_false, if_false]
      exact hphase2 m

/-- Witness for C5 at a concrete environment in which every candidate
fails. -/
theorem C5_all_candidates_fail_clean_witness :
    (universal_download_flow
      ⟨fun _ => [("https://www.gov.br/x/a.pdf", "A")],
        fun _ _ => none, fun m => some m.job⟩
      { job_name := some "J1", source_type := some "generic",
        source_url := some "https://www.gov.br/x/page",
        source_params := some { dataset_name := some "ds" },
        destination_bucket := some "b",
        destination_path := some "p" }).1 = .ok [] := by
  exact (C5_all_candidates_fail_clean
    ⟨fun _ => [("https://www.gov.br/x/a.pdf", "A")],
      fun _ _ => none, fun m => some m.job⟩
    { job_name := some "J1", source_type := some "generic",
      source_url := some "https://www.gov.br/x/page",
      source_params := some { dataset_name := some "ds" },
      destination_bucket := some "b", destination_path := some "p" }
    { job_name := "j1", environment := "dev", source_type := "generic",
      source_url := "https://www.gov.br/x/page",
      source_params := { dataset_name := some "ds" },
      destination_bucket := "b", destination_path := "p" }
    "ds" ScraperKind.salario (by rfl) (by rfl) (by rfl)
    (fun _ _ => rfl)).1

/-- C10: when the candidate phase uploaded at least one file URI and
the metadata upload succeeds, the flow returns the metadata URI first
followed by the per-candidate URIs, while the manifest it uploaded
contains exactly the per-candidate URIs as its `files` field — the
metadata URI itself is never part of it. -/
theorem C10_manifest_order (env : FlowEnv) (raw : RawConfig)
    (config : PipelineConfig) (dso : String) (k : ScraperKind)
    (uri : String)
    (hv : PipelineConfig.validate raw = .ok config)
    (hds : datasetOverride config.source_params = some dso)
    (hgen : config.source_type = "generic")
    (hk : get_scraper_for_url config.source_url = some k)
    (hne : (flowCandidatePhase env config dso k).1 ≠ [])
    (hup : env.metaUploadResult
      ⟨config.job_name, (flowCandidatePhase env config dso k).1⟩ =
        some uri) :
    universal_download_flow env raw =
      (.ok (uri :: (flowCandidatePhase env config dso k).1),
        (flowCandidatePhase env config dso k).2 ++
          [NetEvent.metaUpload
            ⟨config.job_name, (flowCandidatePhase env config dso k).1⟩]) := by
  unfold universal_download_flow
  simp only [hv, hds]
  simp only [hgen, ne_eq, not_true_eq_false, if_neg, not_not,
    if_false]
  simp only [hk]
  simp only [finalizeFlow, hne, if_pos, ne_eq, not_false_iff, hup]

/-- Witness for C10 at a concrete environment with one successful
candidate and a successful metadata upload. -/
theorem C10_manifest_order_witness :
    universal_download_flow
      ⟨fun _ => [("https://www.gov.br/x/a.pdf", "A")],
        fun u _ => some ["gs://b/f/" ++ u],
        fun m => some ("gs://b/meta/" ++ m.job)⟩
      { job_name := some "J1", source_type := some "generic",
        source_url := some "https://www.gov.br/x/page",
        source_params := some { dataset_name := some "ds" },
        destination_bucket := some "b", destination_path := some "p" } =
      (.ok ["gs://b/meta/j1",
          "gs://b/f/https://www.gov.br/x/a.pdf"],
        [NetEvent.fetchHtml "https://www.gov.br/x/page",
          NetEvent.downloadProcess "https://www.gov.br/x/a.pdf",
          NetEvent.metaUpload
            ⟨"j1", ["gs://b/f/https://www.gov.br/x/a.pdf"]⟩]) := by
  exact C10_manifest_order
    ⟨fun _ => [("https://www.gov.br/x/a.pdf", "A")],
      fun u _ => some ["gs://b/f/" ++ u],
      fun m => some ("gs://b/meta/" ++ m.job)⟩
    { job_name := some "J1", source_type := some "generic",
      source_url := some "https://www.gov.br/x/page",
      source_params := some { dataset_name := some "ds" },
      destination_bucket := some "b", destination_path := some "p" }
    { job_name := "j1", environment := "dev", source_type := "generic",
      source_url := "https://www.gov.br/x/page",
      source_params := { dataset_name := some "ds" },
      destination_bucket := "b", destination_path := "p" }
    "ds" ScraperKind.salario "gs://b/meta/j1" (by rfl) (by rfl) rfl
    (by rfl) (by decide) (by rfl)

/-! ## Filter strategies: the fallback chain (C1) -/

theorem salario_filter_nonempty (params : SourceParams)
    (links : List Link) (hne : links ≠ []) :
    salario_filter_links params links ≠ [] := by
  unfold salario_filter_links
  simp only []
  split_ifs with h
  · exact h
  · simp only [ne_eq, List.map_eq_nil_iff]
    exact hne

theorem fundeb_filter_nonempty (params : SourceParams)
    (links : List Link) (hne : links ≠ []) (r : List String)
    (hr : fundeb_filter_links params links = some r) : r ≠ [] := by
  unfold fundeb_filter_links at hr
  simp only [] at hr
  split_ifs at hr with h1
  · cases hr
    exact h1
  · rcases hm : (links.mapM fun l =>
        (urlparse l.1.data).map fun p =>
          (l.1, endsWithL ".pdf".data (lowerL p.path))) with _ | flagged
    · rw [hm] at hr
      cases hr
    · rw [hm] at hr
      simp only [] at hr
      split_ifs at hr with h2
      · cases hr
        exact h2
      · cases hr
        simp only [ne_eq, List.map_eq_nil_iff]
        exact hne

/-- C1 counterexample: for the Salário Educação source page the
registry selects the Salário strategy, and on a link list where the
primary hint matches nothing but one link is a PDF, the strategy skips
the spec's middle tier (all links of the expected resource type) and
returns all links instead of only the PDF. -/
theorem C1_counterexample :
    get_scraper_for_url "https://www.gov.br/x/consultas" =
      some ScraperKind.salario ∧
    threeTierFilter (salarioPrimary {}) isPdfLink
      [("https://a.gov/lista.pdf", "Lista"),
        ("https://b.gov/page.html", "Page")] =
      ["https://a.gov/lista.pdf"] ∧
    scraper_filter ScraperKind.salario {}
      [("https://a.gov/lista.pdf", "Lista"),
        ("https://b.gov/page.html", "Page")] =
      some ["https://a.gov/lista.pdf", "https://b.gov/page.html"] ∧
    scraper_filter ScraperKind.salario {}
      [("https://a.gov/lista.pdf", "Lista"),
        ("https://b.gov/page.html", "Page")] ≠
      some (threeTierFilter (salarioPrimary {}) isPdfLink
        [("https://a.gov/lista.pdf", "Lista"),
          ("https://b.gov/page.html", "Page")]) := by
  refine ⟨by rfl, by rfl, by rfl, ?_⟩
  decide

/-- C1 amended: for every source URL on which the registry resolves a
strategy and every non-empty link list, whenever the selected
strategy's `filter_links` returns (rather than raising) it returns a
non-empty URL list; only the FUNDEB/VAAT strategy implements the
full three-tier chain — the Salário strategy falls back from its hint
rules directly to all links, and the default strategy returns all
links unfiltered. -/
theorem C1_filter_nonempty (url : String) (params : SourceParams)
    (links : List Link) (k : ScraperKind) (r : List String)
    (hk : get_scraper_for_url url = some k) (hne : links ≠ [])
    (hr : scraper_filter k params links = some r) : r ≠ [] := by
  cases k with
  | salario =>
    simp only [scraper_filter, Option.some.injEq] at hr
    rw [← hr]
    exact salario_filter_nonempty params links hne
  | fundeb =>
    exact fundeb_filter_nonempty params links hne r hr
  | base =>
    simp only [scraper_filter, Option.some.injEq] at hr
    rw [← hr]
    simp only [ne_eq, List.map_eq_nil_iff]
    exact hne

/-- Witness for C1 (amended) at the registry-selected Salário strategy
on a concrete two-link list. -/
theorem C1_filter_nonempty_witness :
    (["https://a.gov/lista.pdf", "https://b.gov/page.html"] :
      List String) ≠ [] :=
  C1_filter_nonempty "https://www.gov.br/x/consultas" {}
    [("https://a.gov/lista.pdf", "Lista"),
      ("https://b.gov/page.html", "Page")]
    ScraperKind.salario
    ["https://a.gov/lista.pdf", "https://b.gov/page.html"]
    (by rfl) (by decide) (by rfl)

/-! ## Dataset-name derivation (C9) -/

theorem headD_mem {α : Type} (l : List α) (d : α) (h : l ≠ []) :
    l.headD d ∈ l := by
  cases l with
  | nil => exact absurd rfl h
  | cons x xs => simp

theorem tokenOfPart_ne_nil (part0 t : Chars)
    (h : tokenOfPart part0 = some t) : t ≠ [] := by
  unfold tokenOfPart at h
  simp only [] at h
  split_ifs at h with h1 h2 h3 h4 <;> cases h
  · exact h1
  · intro hnil
    have hel := headD_mem _ ([] : Chars) h3
    rw [hnil] at hel
    have hprop := (List.mem_filter.mp hel).2
    have := of_decide_eq_true hprop
    simp at this

theorem chooseDatasetTokens_ne_nil (tokens : List Chars)
    (hne : tokens ≠ []) (hel : ∀ t ∈ tokens, t ≠ []) :
    chooseDatasetTokens tokens ≠ [] := by
  have key : ∀ ordered : List Chars, ordered ≠ [] →
      (∀ t ∈ ordered, t ≠ []) →
      (match (ordered.take 2).map hyph2under with
        | [c] => c
        | c0 :: c1 :: _ => c0 ++ '_' :: c1
        | [] => []) ≠ [] := by
    intro ordered hord helo
    match ordered with
    | [o0] =>
      simp only [List.take, List.map]
      intro hc
      apply helo o0 (by simp)
      have : o0.length = 0 := by
        have := congrArg List.length hc
        simpa [hyph2under] using this
      exact List.length_eq_zero.mp this
    | o0 :: o1 :: rest =>
      simp only [List.take, List.map]
      simp
  have hord : tokens.filter isPriorityToken ++
      (tokens.filter fun t => !isPriorityToken t).filter
        (fun t => !(tokens.filter isPriorityToken).contains t) ≠ [] := by
    cases hp : tokens.filter isPriorityToken with
    | cons a l => simp
    | nil =>
      simp only [List.nil_append]
      have hall : ∀ t ∈ tokens, ¬isPriorityToken t :=
        fun t ht => by
          intro hpt
          have : t ∈ tokens.filter isPriorityToken :=
            List.mem_filter.mpr ⟨ht, hpt⟩
          rw [hp] at this
          simp at this
      have h1 : tokens.filter (fun t => !isPriorityToken t) = tokens :=
        List.filter_eq_self.mpr fun t ht => by
          simp [hall t ht]
      rw [h1]
      have h2 : tokens.filter (fun t => !(([] : List Chars).contains t)) =
          tokens :=
        List.filter_eq_self.mpr fun t _ => by simp
      rw [h2]
      exact hne
  have hsub : ∀ t ∈ tokens.filter isPriorityToken ++
      (tokens.filter fun t => !isPriorityToken t).filter
        (fun t => !(tokens.filter isPriorityToken).contains t), t ≠ [] := by
    intro t ht
    rcases List.mem_append.mp ht with ht | ht
    · exact hel t (List.mem_filter.mp ht).1
    · exact hel t (List.mem_filter.mp (List.mem_filter.mp ht).1).1
  unfold chooseDatasetTokens
  exact key _ hord hsub

theorem jobFallback_ne_nil (jn : Option Chars)
    (h : ∀ s, jn = some s → s ≠ [] → s.headD ' ' ≠ '_') :
    jobFallback jn ≠ [] := by
  cases jn with
  | none => simp [jobFallback]
  | some s =>
    by_cases hs : s ≠ []
    · cases s with
      | nil => exact absurd rfl hs
      | cons x xs =>
        have hx : x ≠ '_' := by simpa using h (x :: xs) rfl hs
        simp only [jobFallback, hs, if_pos, ne_eq, not_false_iff]
        simp only [splitChar, hx, if_neg, ite_false]
        cases splitChar '_' xs <;> simp
    · simp only [jobFallback, hs, if_neg, not_not]
      simp [not_not.mp hs]

/-- C9 counterexample: the job name `_x` contains no whitespace — so it
is accepted by the config validator — yet `infer_dataset` on a URL with
no usable path tokens and no hostname returns the empty string (the
job-name fallback takes the part before the first underscore, which is
empty). -/
theorem C9_counterexample :
    "_x".data.contains ' ' = false ∧
    infer_dataset "" (some "_x") = "" := by
  constructor
  · decide
  · rfl

/-- C9 amended: `infer_dataset` returns a non-empty string for every
URL and every job name that is empty, absent, or does not start with an
underscore; the only empty result arises from the job-name fallback
when the part of the job name before the first underscore is empty. -/
theorem C9_infer_dataset_nonempty (url : String) (jn : Option String)
    (h : ∀ s, jn = some s → s ≠ "" → s.data.headD ' ' ≠ '_') :
    infer_dataset url jn ≠ "" := by
  have hjob : jobFallback (jn.map String.data) ≠ [] := by
    apply jobFallback_ne_nil
    intro s hs hne
    cases jn with
    | none => cases hs
    | some j =>
      have : j.data = s := by
        simpa using hs
      rw [← this]
      apply h j rfl
      intro hj
      rw [hj] at this
      exact hne (by simpa using this.symm)
  have hmk : ∀ l : Chars, l ≠ [] → String.mk l ≠ "" := by
    intro l hl he
    apply hl
    have : (String.mk l).data = ("" : String).data := by rw [he]
    simpa using this
  unfold infer_dataset infer_datasetL
  cases hp : urlparse url.data with
  | none => exact hmk _ hjob
  | some p =>
    simp only []
    split_ifs with h1 h2
    · apply hmk
      apply chooseDatasetTokens_ne_nil _ h1
      intro t ht
      obtain ⟨part, _, hpart⟩ := List.mem_filterMap.mp ht
      exact tokenOfPart_ne_nil part t hpart
    · exact hmk _ h2
    · exact hmk _ hjob

/-- Witness for C9 (amended) at a URL with no usable tokens and a
well-formed job name. -/
theorem C9_infer_dataset_nonempty_witness :
    infer_dataset "" (some "x_y") ≠ "" :=
  C9_infer_dataset_nonempty "" (some "x_y")
    (fun s hs _ => by
      have hss : s = "x_y" := by simpa using hs.symm
      rw [hss]
      decide)

/-! ## Normalizer totality (C8) -/

/-- C8 counterexample: the normalizer raises on `http://[` — CPython's
`urlsplit` raises `ValueError("Invalid IPv6 URL")` on a netloc with an
unmatched square bracket, and `normalize_url` does not catch it, so it
does not return a string for every input. -/
theorem C8_counterexample : normalize_url "http://[" = none := by rfl

/-- C8 amended: the spec's never-raises claim is false — `normalize_url`
calls `urlparse` with no `try`/`except` and propagates its `ValueError`.
In particular every URL whose authority component contains an unmatched
square bracket makes `urlsplit` raise `ValueError("Invalid IPv6 URL")`
and so makes the normalizer raise.  Only this direction is asserted:
CPython's `urlsplit` raises on further authorities the model does not
check (bracket-balanced non-IP bracketed hosts via
`_check_bracketed_host` on 3.11+, and netlocs whose NFKC normalisation
introduces a delimiter via `_checknetloc`), so the unmatched-bracket
inputs are a subset, not the whole, of the raising inputs. -/
theorem C8_raises_on_unmatched_bracket (u : String)
    (h : bracketsOk (splitNetloc (schemeSplit (removeUnsafe u.data)).2).1 =
      false) :
    normalize_url u = none := by
  unfold normalize_url normalize_urlL urlparse urlsplitM
  simp [h]

/-- Witness for C8 (amended): the authority of `http://]x` contains an
unmatched closing bracket and the normalizer raises on it. -/
theorem C8_raises_on_unmatched_bracket_witness :
    bracketsOk
        (splitNetloc (schemeSplit (removeUnsafe
          (String.data "http://]x"))).2).1 = false ∧
    normalize_url "http://]x" = none :=
  ⟨by rfl, C8_raises_on_unmatched_bracket "http://]x" (by rfl)⟩

/-! ## Normalizer idempotence (C7): character and splitting lemmas -/

theorem toNat_ofNat_valid (n : Nat) (h : n.isValidChar) :
    (Char.ofNat n).toNat = n := by
  unfold Char.ofNat
  rw [dif_pos h]
  simp [Char.ofNatAux, Char.toNat, UInt32.toNat, BitVec.toNat_ofNatLt]

theorem char_toNat_inj {c d : Char} (h : c.toNat = d.toNat) : c = d := by
  apply Char.eq_of_val_eq
  apply UInt32.eq_of_toBitVec_eq
  apply BitVec.eq_of_toNat_eq
  exact h

theorem ofNat_toNat_char (c : Char) : Char.ofNat c.toNat = c :=
  char_toNat_inj (toNat_ofNat_valid c.toNat c.valid)

theorem char_toNat_valid (c : Char) : c.toNat.isValidChar := c.valid

theorem toLower_toNat (c : Char) :
    (Char.toLower c).toNat =
      if 65 ≤ c.toNat ∧ c.toNat ≤ 90 then c.toNat + 32 else c.toNat := by
  unfold Char.toLower
  by_cases h : 65 ≤ c.toNat ∧ c.toNat ≤ 90
  · rw [if_pos h, if_pos h]
    exact toNat_ofNat_valid _ (Or.inl (by omega))
  · rw [if_neg h, if_neg h]

theorem toLower_idem (c : Char) :
    Char.toLower (Char.toLower c) = Char.toLower c := by
  apply char_toNat_inj
  rw [toLower_toNat, toLower_toNat]
  split_ifs <;> omega

theorem lowerL_idem (l : Chars) : lowerL (lowerL l) = lowerL l := by
  unfold lowerL
  rw [List.map_map]
  apply List.map_congr_left
  intro c _
  exact toLower_idem c

theorem splitFirst_cons_ne (c x : Char) (rest : Chars) (hx : x ≠ c) :
    splitFirst c (x :: rest) =
      (splitFirst c rest).map fun p => (x :: p.1, p.2) := by
  simp [splitFirst, hx]

theorem splitFirst_not_mem (c : Char) (l : Chars) (h : c ∉ l) :
    splitFirst c l = none := by
  induction l with
  | nil => rfl
  | cons x xs ih =>
    have hx : x ≠ c := fun q => h (q ▸ List.mem_cons_self _ _)
    rw [splitFirst_cons_ne c x xs hx,
      ih (fun q => h (List.mem_cons_of_mem _ q))]
    rfl

theorem splitFirst_none_not_mem (c : Char) (l : Chars)
    (h : splitFirst c l = none) : c ∉ l := by
  induction l with
  | nil => simp
  | cons x xs ih =>
    by_cases hx : x = c
    · simp [splitFirst, hx] at h
    · rw [splitFirst_cons_ne c x xs hx] at h
      intro hmem
      rcases List.mem_cons.mp hmem with h1 | h1
      · exact hx h1.symm
      · exact ih (by
          cases hsf : splitFirst c xs with
          | none => rfl
          | some p => rw [hsf] at h; simp at h) h1

theorem splitFirst_mk (c : Char) (a b : Chars) (h : c ∉ a) :
    splitFirst c (a ++ c :: b) = some (a, b) := by
  induction a with
  | nil => simp [splitFirst]
  | cons x xs ih =>
    have hx : x ≠ c := fun q => h (q ▸ List.mem_cons_self _ _)
    rw [List.cons_append, splitFirst_cons_ne c x _ hx,
      ih (fun q => h (List.mem_cons_of_mem _ q))]
    rfl

theorem splitFirst_eq_some (c : Char) (l a b : Chars)
    (h : splitFirst c l = some (a, b)) : l = a ++ c :: b ∧ c ∉ a := by
  induction l generalizing a with
  | nil => simp [splitFirst] at h
  | cons x xs ih =>
    by_cases hx : x = c
    · subst hx
      simp only [splitFirst, if_pos] at h
      cases h
      simp
    · rw [splitFirst_cons_ne c x xs hx] at h
      cases hsf : splitFirst c xs with
      | none => rw [hsf] at h; cases h
      | some p =>
        rw [hsf] at h
        have h2 : some (x :: p.1, p.2) = some (a, b) := h
        cases h2
        obtain ⟨hl, hna⟩ := ih p.1 hsf
        constructor
        · simp [hl]
        · intro hmem
          rcases List.mem_cons.mp hmem with h1 | h1
          · exact hx h1.symm
          · exact hna h1

theorem splitFirst_append_left (c : Char) (x y a b : Chars)
    (h : splitFirst c x = some (a, b)) :
    splitFirst c (x ++ y) = some (a, b ++ y) := by
  obtain ⟨hl, hna⟩ := splitFirst_eq_some c x a b h
  subst hl
  rw [List.append_assoc, List.cons_append]
  exact splitFirst_mk c a (b ++ y) hna

theorem splitFirst_append_cases (c : Char) (x y : Chars) (a b : Chars)
    (hy : c ∉ y) (h : splitFirst c (x ++ y) = some (a, b)) :
    ∃ b0, splitFirst c x = some (a, b0) := by
  cases hx : splitFirst c x with
  | some p =>
    obtain ⟨pa, pb⟩ := p
    have h2 := splitFirst_append_left c x y pa pb hx
    have h3 := h2.symm.trans h
    simp only [Option.some.injEq, Prod.mk.injEq] at h3
    exact ⟨pb, by rw [h3.1]⟩
  | none =>
    have hnx := splitFirst_none_not_mem c x hx
    have : c ∉ x ++ y := by
      intro hmem
      rcases List.mem_append.mp hmem with h1 | h1
      · exact hnx h1
      · exact hy h1
    rw [splitFirst_not_mem c _ this] at h
    cases h

theorem splitChar_cons_ne_of_eq (c x : Char) (rest s : Chars)
    (ss : List Chars) (hx : x ≠ c) (hr : splitChar c rest = s :: ss) :
    splitChar c (x :: rest) = (x :: s) :: ss := by
  simp [splitChar, hx, hr]

theorem splitChar_not_mem (c : Char) (l : Chars) (h : c ∉ l) :
    splitChar c l = [l] := by
  induction l with
  | nil => rfl
  | cons x xs ih =>
    have hx : x ≠ c := fun q => h (q ▸ List.mem_cons_self _ _)
    exact splitChar_cons_ne_of_eq c x xs xs [] hx
      (ih (fun q => h (List.mem_cons_of_mem _ q)))

theorem splitChar_ne_nil (c : Char) (l : Chars) :
    splitChar c l ≠ [] := by
  induction l with
  | nil => simp [splitChar]
  | cons x xs ih =>
    by_cases hx : x = c
    · simp [splitChar, hx]
    · simp only [splitChar, hx, if_neg, not_false_iff]
      cases hsp : splitChar c xs with
      | nil => exact absurd hsp ih
      | cons s ss => simp

theorem splitChar_append (c : Char) (a b : Chars) (h : c ∉ a) :
    splitChar c (a ++ c :: b) = a :: splitChar c b := by
  induction a with
  | nil => simp [splitChar]
  | cons x xs ih =>
    have hx : x ≠ c := fun q => h (q ▸ List.mem_cons_self _ _)
    rw [List.cons_append]
    exact splitChar_cons_ne_of_eq c x _ xs (splitChar c b) hx
      (ih (fun q => h (List.mem_cons_of_mem _ q)))

theorem takeWhile_append_all (q : Char → Bool) (a b : Chars)
    (ha : ∀ c ∈ a, q c = true) :
    (a ++ b).takeWhile q = a ++ b.takeWhile q := by
  induction a with
  | nil => simp
  | cons x xs ih =>
    rw [List.cons_append, List.takeWhile_cons,
      ha x (List.mem_cons_self _ _)]
    simp only [if_true]
    rw [ih fun c hc => ha c (List.mem_cons_of_mem _ hc)]
    rfl

theorem dropWhile_append_all (q : Char → Bool) (a b : Chars)
    (ha : ∀ c ∈ a, q c = true) :
    (a ++ b).dropWhile q = b.dropWhile q := by
  induction a with
  | nil => simp
  | cons x xs ih =>
    rw [List.cons_append, List.dropWhile_cons,
      ha x (List.mem_cons_self _ _)]
    simp only [if_true]
    exact ih fun c hc => ha c (List.mem_cons_of_mem _ hc)

/-! ## C7: quote_plus / unquote roundtrip -/

theorem hexUpper_isHexDigit (n : Nat) (h : n < 16) :
    isHexDigit (hexUpper n) = true := by
  interval_cases n <;> decide

theorem hexVal_hexUpper (n : Nat) (h : n < 16) :
    hexVal (hexUpper n) = n := by
  interval_cases n <;> decide

theorem hexUpper_ne (n : Nat) (h : n < 16) (c : Char)
    (hc : c.toNat < 48 ∨ (57 < c.toNat ∧ c.toNat < 65) ∨ 70 < c.toNat) :
    hexUpper n ≠ c := by
  intro he
  have ht : (hexUpper n).toNat = if n < 10 then 48 + n else 55 + n := by
    unfold hexUpper
    split_ifs with hn
    · exact toNat_ofNat_valid _ (Or.inl (by omega))
    · exact toNat_ofNat_valid _ (Or.inl (by omega))
  rw [he] at ht
  split_ifs at ht <;> omega

theorem utf8Encode_bytes_lt (n : Nat) (hn : n < 0x110000) :
    ∀ b ∈ utf8Encode n, b < 256 := by
  intro b hb
  unfold utf8Encode at hb
  split_ifs at hb <;>
    simp only [List.mem_cons, List.mem_singleton,
      List.not_mem_nil, or_false] at hb <;>
    omega

theorem unqAux_literal (c : Char) (rest : Chars) (buf : List Nat)
    (hc : c ≠ '%') :
    unqAux (c :: rest) buf =
      utf8Decode buf.reverse ++ c :: unqAux rest [] := by
  match rest with
  | [] => simp [unqAux, hc]
  | [h1] => simp [unqAux, hc]
  | h1 :: h2 :: r => simp [unqAux, hc]

theorem unqAux_pct (b : Nat) (hb : b < 256) (t : Chars)
    (buf : List Nat) :
    unqAux (pctEncodeByte b ++ t) buf = unqAux t (b :: buf) := by
  have h1 : b / 16 < 16 := by omega
  have h2 : b % 16 < 16 := by omega
  have harith : hexVal (hexUpper (b / 16)) * 16 + hexVal (hexUpper (b % 16)) = b := by
    rw [hexVal_hexUpper _ h1, hexVal_hexUpper _ h2]
    omega
  simp only [pctEncodeByte, List.cons_append, List.nil_append]
  simp only [unqAux, hexUpper_isHexDigit _ h1, hexUpper_isHexDigit _ h2,
    Bool.and_self, if_true, harith]

theorem unqAux_pcts (bs : List Nat) (hbs : ∀ b ∈ bs, b < 256)
    (t : Chars) (buf : List Nat) :
    unqAux (bs.flatMap pctEncodeByte ++ t) buf =
      unqAux t (bs.reverse ++ buf) := by
  induction bs generalizing buf with
  | nil => simp
  | cons b bs ih =>
    rw [List.flatMap_cons, List.append_assoc,
      unqAux_pct b (hbs b (List.mem_cons_self _ _)) _ buf,
      ih (fun x hx => hbs x (List.mem_cons_of_mem _ hx)) (b :: buf)]
    simp

theorem char_valid_facts (c : Char) :
    c.toNat < 0x110000 ∧ (c.toNat < 0xD800 ∨ 0xDFFF < c.toNat) := by
  have h : c.toNat < 0xd800 ∨ (0xdfff < c.toNat ∧ c.toNat < 0x110000) :=
    c.valid
  rcases h with h | h
  · exact ⟨by omega, Or.inl h⟩
  · exact ⟨h.2, Or.inr h.1⟩

theorem utf8Step_length (b : Nat) (bs : List Nat) :
    (utf8Step b bs).2.length ≤ bs.length := by
  match bs with
  | [] => simp only [utf8Step]; split_ifs <;> simp
  | [b1] => simp only [utf8Step]; split_ifs <;> simp
  | [b1, b2] => simp only [utf8Step]; split_ifs <;> simp
  | b1 :: b2 :: b3 :: r =>
    simp only [utf8Step]
    split_ifs <;> simp
    omega

theorem utf8DecodeF_congr (f1 : Nat) : ∀ (f2 : Nat) (l : List Nat),
    l.length ≤ f1 → l.length ≤ f2 → utf8DecodeF f1 l = utf8DecodeF f2 l := by
  induction f1 with
  | zero =>
    intro f2 l h1 _
    have : l = [] := List.length_eq_zero.mp (Nat.le_zero.mp h1)
    subst this
    cases f2 <;> rfl
  | succ g ih =>
    intro f2 l h1 h2
    cases l with
    | nil => cases f2 <;> rfl
    | cons b bs =>
      cases f2 with
      | zero => simp at h2
      | succ g2 =>
        simp only [utf8DecodeF]
        congr 1
        apply ih
        · have := utf8Step_length b bs
          simp only [List.length_cons] at h1
          omega
        · have := utf8Step_length b bs
          simp only [List.length_cons] at h2
          omega

theorem utf8Decode_cons (b : Nat) (bs : List Nat) :
    utf8Decode (b :: bs) =
      (utf8Step b bs).1 :: utf8Decode (utf8Step b bs).2 := by
  unfold utf8Decode
  simp only [List.length_cons, utf8DecodeF]
  congr 1
  apply utf8DecodeF_congr
  · exact utf8Step_length b bs
  · exact Nat.le_refl _

theorem utf8Decode_encode_cons (c : Char) (bs : List Nat) :
    utf8Decode (utf8Encode c.toNat ++ bs) = c :: utf8Decode bs := by
  obtain ⟨hlt, hsur⟩ := char_valid_facts c
  by_cases h1 : c.toNat < 0x80
  · rw [show utf8Encode c.toNat = [c.toNat] from by
      unfold utf8Encode; rw [if_pos h1]]
    rw [List.cons_append, List.nil_append, utf8Decode_cons]
    rw [show utf8Step c.toNat bs = (Char.ofNat c.toNat, bs) from by
      unfold utf8Step; rw [if_pos h1]]
    rw [ofNat_toNat_char]
  · by_cases h2 : c.toNat < 0x800
    · rw [show utf8Encode c.toNat =
          [0xC0 + c.toNat / 64, 0x80 + c.toNat % 64] from by
        unfold utf8Encode; rw [if_neg h1, if_pos h2]]
      have f1 : ¬(0xC0 + c.toNat / 64 < 0x80) := by omega
      have f2 : ¬(0xC0 + c.toNat / 64 < 0xC2) := by omega
      have f3 : 0xC0 + c.toNat / 64 < 0xE0 := by omega
      have f4 : 0x80 ≤ 0x80 + c.toNat % 64 ∧ 0x80 + c.toNat % 64 < 0xC0 := by
        omega
      have f5 : (0xC0 + c.toNat / 64 - 0xC0) * 64 +
          (0x80 + c.toNat % 64 - 0x80) = c.toNat := by omega
      rw [List.cons_append, List.cons_append, List.nil_append,
        utf8Decode_cons]
      rw [show utf8Step (0xC0 + c.toNat / 64) ((0x80 + c.toNat % 64) :: bs) =
          (Char.ofNat ((0xC0 + c.toNat / 64 - 0xC0) * 64 +
            (0x80 + c.toNat % 64 - 0x80)), bs) from by
        unfold utf8Step
        rw [if_neg f1, if_neg f2, if_pos f3]
        simp only [if_pos f4]]
      rw [f5, ofNat_toNat_char]
    · by_cases h3 : c.toNat < 0x10000
      · rw [show utf8Encode c.toNat =
            [0xE0 + c.toNat / 4096, 0x80 + c.toNat / 64 % 64,
              0x80 + c.toNat % 64] from by
          unfold utf8Encode; rw [if_neg h1, if_neg h2, if_pos h3]]
        have f1 : ¬(0xE0 + c.toNat / 4096 < 0x80) := by omega
        have f2 : ¬(0xE0 + c.toNat / 4096 < 0xC2) := by omega
        have f3 : ¬(0xE0 + c.toNat / 4096 < 0xE0) := by omega
        have f4 : 0xE0 + c.toNat / 4096 < 0xF0 := by omega
        have f5 : 0x80 ≤ 0x80 + c.toNat / 64 % 64 ∧
            0x80 + c.toNat / 64 % 64 < 0xC0 ∧
            0x80 ≤ 0x80 + c.toNat % 64 ∧ 0x80 + c.toNat % 64 < 0xC0 ∧
            (0xE0 + c.toNat / 4096 = 0xE0 →
              0xA0 ≤ 0x80 + c.toNat / 64 % 64) ∧
            (0xE0 + c.toNat / 4096 = 0xED →
              0x80 + c.toNat / 64 % 64 < 0xA0) := by omega
        have f6 : (0xE0 + c.toNat / 4096 - 0xE0) * 4096 +
            (0x80 + c.toNat / 64 % 64 - 0x80) * 64 +
            (0x80 + c.toNat % 64 - 0x80) = c.toNat := by omega
        rw [List.cons_append, List.cons_append, List.cons_append,
          List.nil_append, utf8Decode_cons]
        rw [show utf8Step (0xE0 + c.toNat / 4096)
            ((0x80 + c.toNat / 64 % 64) :: (0x80 + c.toNat % 64) :: bs) =
            (Char.ofNat ((0xE0 + c.toNat / 4096 - 0xE0) * 4096 +
              (0x80 + c.toNat / 64 % 64 - 0x80) * 64 +
              (0x80 + c.toNat % 64 - 0x80)), bs) from by
          unfold utf8Step
          rw [if_neg f1, if_neg f2, if_neg f3, if_pos f4]
          simp only [if_pos f5]]
        rw [f6, ofNat_toNat_char]
      · rw [show utf8Encode c.toNat =
            [0xF0 + c.toNat / 262144, 0x80 + c.toNat / 4096 % 64,
              0x80 + c.toNat / 64 % 64, 0x80 + c.toNat % 64] from by
          unfold utf8Encode; rw [if_neg h1, if_neg h2, if_neg h3]]
        have f1 : ¬(0xF0 + c.toNat / 262144 < 0x80) := by omega
        have f2 : ¬(0xF0 + c.toNat / 262144 < 0xC2) := by omega
        have f3 : ¬(0xF0 + c.toNat / 262144 < 0xE0) := by omega
        have f4 : ¬(0xF0 + c.toNat / 262144 < 0xF0) := by omega
        have f5 : 0xF0 + c.toNat / 262144 < 0xF5 := by omega
        have f6 : 0x80 ≤ 0x80 + c.toNat / 4096 % 64 ∧
            0x80 + c.toNat / 4096 % 64 < 0xC0 ∧
            0x80 ≤ 0x80 + c.toNat / 64 % 64 ∧
            0x80 + c.toNat / 64 % 64 < 0xC0 ∧
            0x80 ≤ 0x80 + c.toNat % 64 ∧ 0x80 + c.toNat % 64 < 0xC0 ∧
            (0xF0 + c.toNat / 262144 = 0xF0 →
              0x90 ≤ 0x80 + c.toNat / 4096 % 64) ∧
            (0xF0 + c.toNat / 262144 = 0xF4 →
              0x80 + c.toNat / 4096 % 64 < 0x90) := by omega
        have f7 : (0xF0 + c.toNat / 262144 - 0xF0) * 262144 +
            (0x80 + c.toNat / 4096 % 64 - 0x80) * 4096 +
            (0x80 + c.toNat / 64 % 64 - 0x80) * 64 +
            (0x80 + c.toNat % 64 - 0x80) = c.toNat := by omega
        rw [List.cons_append, List.cons_append, List.cons_append,
          List.cons_append, List.nil_append, utf8Decode_cons]
        rw [show utf8Step (0xF0 + c.toNat / 262144)
            ((0x80 + c.toNat / 4096 % 64) :: (0x80 + c.toNat / 64 % 64) ::
              (0x80 + c.toNat % 64) :: bs) =
            (Char.ofNat ((0xF0 + c.toNat / 262144 - 0xF0) * 262144 +
              (0x80 + c.toNat / 4096 % 64 - 0x80) * 4096 +
              (0x80 + c.toNat / 64 % 64 - 0x80) * 64 +
              (0x80 + c.toNat % 64 - 0x80)), bs) from by
          unfold utf8Step
          rw [if_neg f1, if_neg f2, if_neg f3, if_neg f4, if_pos f5]
          simp only [if_pos f6]]
        rw [f7, ofNat_toNat_char]

theorem utf8Decode_flat (pre : List Char) (bs : List Nat) :
    utf8Decode ((pre.flatMap fun c => utf8Encode c.toNat) ++ bs) =
      pre ++ utf8Decode bs := by
  induction pre with
  | nil => simp
  | cons c cs ih =>
    rw [List.flatMap_cons, List.append_assoc, utf8Decode_encode_cons,
      ih, List.cons_append]

theorem mem_quotePlus (s : Chars) :
    ∀ c ∈ quotePlus s, isQChar c = true := by
  intro c hc
  unfold quotePlus at hc
  obtain ⟨x, _, hx⟩ := List.mem_flatMap.mp hc
  unfold quotePlusChar at hx
  split_ifs at hx with hsp hsafe
  · simp only [List.mem_singleton] at hx
    subst hx
    decide
  · simp only [List.mem_singleton] at hx
    subst hx
    simp [isQChar, hsafe]
  · obtain ⟨b, hb, hbc⟩ := List.mem_flatMap.mp hx
    have hb256 := utf8Encode_bytes_lt x.toNat (char_valid_facts x).1 b hb
    simp only [pctEncodeByte, List.mem_cons, List.mem_singleton,
      List.not_mem_nil, or_false] at hbc
    rcases hbc with rfl | rfl | rfl
    · decide
    · simp [isQChar, hexUpper_isHexDigit _ (by omega : b / 16 < 16)]
    · simp [isQChar, hexUpper_isHexDigit _ (by omega : b % 16 < 16)]

theorem replPlus_quotePlus (s : Chars) :
    replPlus (quotePlus s) = s.flatMap quoteNoPlus := by
  unfold quotePlus replPlus
  induction s with
  | nil => simp
  | cons c cs ih =>
    rw [List.flatMap_cons, List.flatMap_cons, List.map_append, ih]
    congr 1
    unfold quotePlusChar quoteNoPlus
    split_ifs with hsp hsafe
    · rfl
    · have : c ≠ '+' := by
        intro he
        rw [he] at hsafe
        exact absurd hsafe (by decide)
      simp [this]
    · have hmem : ∀ x ∈ (utf8Encode c.toNat).flatMap pctEncodeByte,
          (if x = '+' then ' ' else x) = x := by
        intro x hx
        obtain ⟨b, hb, hbc⟩ := List.mem_flatMap.mp hx
        have hb256 := utf8Encode_bytes_lt c.toNat (char_valid_facts c).1 b hb
        simp only [pctEncodeByte, List.mem_cons, List.mem_singleton,
          List.not_mem_nil, or_false] at hbc
        have hne : x ≠ '+' := by
          rcases hbc with rfl | rfl | rfl
          · decide
          · exact hexUpper_ne _ (by omega) '+' (Or.inl (by decide))
          · exact hexUpper_ne _ (by omega) '+' (Or.inl (by decide))
        simp [hne]
      exact (List.map_congr_left hmem).trans (List.map_id _)

theorem utf8Decode_nil : utf8Decode [] = [] := rfl

theorem utf8Decode_encodes (pre : Chars) :
    utf8Decode (pre.flatMap fun c => utf8Encode c.toNat) = pre := by
  have h := utf8Decode_flat pre []
  rw [List.append_nil, utf8Decode_nil, List.append_nil] at h
  exact h

theorem isAlwaysSafe_ne_pct (c : Char) (h : isAlwaysSafe c = true) :
    c ≠ '%' := by
  intro he
  subst he
  exact absurd h (by decide)

theorem unq_roundtrip (s : Chars) : ∀ pre : Chars,
    unqAux (s.flatMap quoteNoPlus)
      ((pre.flatMap fun c => utf8Encode c.toNat).reverse) = pre ++ s := by
  induction s with
  | nil =>
    intro pre
    rw [List.flatMap_nil, List.append_nil]
    show utf8Decode
      ((pre.flatMap fun c => utf8Encode c.toNat).reverse).reverse = pre
    rw [List.reverse_reverse, utf8Decode_encodes]
  | cons c cs ih =>
    intro pre
    rw [List.flatMap_cons]
    by_cases hsp : c = ' '
    · subst hsp
      rw [show quoteNoPlus ' ' = [' '] from rfl, List.singleton_append,
        unqAux_literal ' ' _ _ (by decide)]
      have h0 := ih []
      simp only [List.flatMap_nil, List.reverse_nil, List.nil_append] at h0
      rw [h0, List.reverse_reverse, utf8Decode_encodes]
    · by_cases hsafe : isAlwaysSafe c
      · rw [show quoteNoPlus c = [c] from by
            unfold quoteNoPlus; rw [if_neg hsp, if_pos hsafe],
          List.singleton_append,
          unqAux_literal c _ _ (isAlwaysSafe_ne_pct c hsafe)]
        have h0 := ih []
        simp only [List.flatMap_nil, List.reverse_nil, List.nil_append] at h0
        rw [h0, List.reverse_reverse, utf8Decode_encodes]
      · rw [show quoteNoPlus c = (utf8Encode c.toNat).flatMap pctEncodeByte
            from by unfold quoteNoPlus; rw [if_neg hsp, if_neg hsafe]]
        rw [unqAux_pcts _
          (utf8Encode_bytes_lt c.toNat (char_valid_facts c).1) _ _]
        have hb : (utf8Encode c.toNat).reverse ++
            (pre.flatMap fun c => utf8Encode c.toNat).reverse =
            ((pre ++ [c]).flatMap fun c => utf8Encode c.toNat).reverse := by
          rw [List.flatMap_append]
          simp
        rw [hb, ih (pre ++ [c])]
        simp

theorem unquotePlus_quotePlus (s : Chars) :
    unquotePlus (quotePlus s) = s := by
  unfold unquotePlus
  rw [replPlus_quotePlus]
  have h := unq_roundtrip s []
  simpa using h

theorem splitChar_joinChar (c : Char) (segs : List Chars)
    (h : ∀ seg ∈ segs, c ∉ seg) (hne : segs ≠ []) :
    splitChar c (joinChar c segs) = segs := by
  induction segs with
  | nil => exact absurd rfl hne
  | cons x xs ih =>
    cases xs with
    | nil =>
      rw [show joinChar c [x] = x from rfl]
      exact splitChar_not_mem _ _ (h x (List.mem_cons_self _ _))
    | cons y ys =>
      rw [show joinChar c (x :: y :: ys) = x ++ c :: joinChar c (y :: ys)
          from rfl,
        splitChar_append _ _ _ (h x (List.mem_cons_self _ _)),
        ih (fun s hs => h s (List.mem_cons_of_mem _ hs)) (by simp)]

theorem mem_seg (n v : Chars) :
    ∀ c ∈ quotePlus n ++ '=' :: quotePlus v,
      isQChar c = true ∨ c = '=' := by
  intro c hc
  rcases List.mem_append.mp hc with h | h
  · exact Or.inl (mem_quotePlus n c h)
  · rcases List.mem_cons.mp h with h | h
    · exact Or.inr h
    · exact Or.inl (mem_quotePlus v c h)

theorem mem_urlencode (l : List (Chars × Chars)) :
    ∀ c ∈ urlencode l, isQChar c = true ∨ c = '=' ∨ c = '&' := by
  induction l with
  | nil =>
    intro c hc
    simp [urlencode, joinChar] at hc
  | cons p ps ih =>
    cases ps with
    | nil =>
      intro c hc
      rw [show urlencode [p] = quotePlus p.1 ++ '=' :: quotePlus p.2
          from rfl] at hc
      rcases mem_seg p.1 p.2 c hc with h | h
      · exact Or.inl h
      · exact Or.inr (Or.inl h)
    | cons q qs =>
      intro c hc
      rw [show urlencode (p :: q :: qs) =
          (quotePlus p.1 ++ '=' :: quotePlus p.2) ++ '&' :: urlencode (q :: qs)
          from rfl] at hc
      rcases List.mem_append.mp hc with h | h
      · rcases mem_seg p.1 p.2 c h with h | h
        · exact Or.inl h
        · exact Or.inr (Or.inl h)
      · rcases List.mem_cons.mp h with h | h
        · exact Or.inr (Or.inr h)
        · exact ih c h

theorem parse_seg_eq (n v : Chars) :
    (if (quotePlus n ++ '=' :: quotePlus v).isEmpty then none
     else
       match splitFirst '=' (quotePlus n ++ '=' :: quotePlus v) with
       | some (a, b) => some (unquotePlus a, unquotePlus b)
       | none => some (unquotePlus (quotePlus n ++ '=' :: quotePlus v),
           ([] : Chars))) = some (n, v) := by
  have hne : '=' ∉ quotePlus n := by
    intro h
    exact absurd (mem_quotePlus n '=' h) (by decide)
  rw [if_neg (by cases h : quotePlus n <;> simp [h])]
  rw [splitFirst_mk '=' _ _ hne]
  simp only [unquotePlus_quotePlus]

theorem filterMap_segs (l : List (Chars × Chars)) :
    ((l.map fun q => quotePlus q.1 ++ '=' :: quotePlus q.2).filterMap
      fun seg =>
        if seg.isEmpty then none
        else
          match splitFirst '=' seg with
          | some (n, v) => some (unquotePlus n, unquotePlus v)
          | none => some (unquotePlus seg, [])) = l := by
  induction l with
  | nil => rfl
  | cons p ps ih =>
    obtain ⟨n, v⟩ := p
    rw [List.map_cons, List.filterMap_cons]
    simp only [parse_seg_eq]
    rw [ih]

theorem parse_qsl_urlencode (l : List (Chars × Chars)) :
    parse_qsl (urlencode l) = l := by
  cases l with
  | nil => rfl
  | cons p ps =>
    unfold parse_qsl
    rw [show urlencode (p :: ps) = joinChar '&'
        ((p :: ps).map fun q => quotePlus q.1 ++ '=' :: quotePlus q.2)
        from rfl]
    have hsegs : ∀ seg ∈ (p :: ps).map
        (fun q => quotePlus q.1 ++ '=' :: quotePlus q.2), '&' ∉ seg := by
      intro seg hseg hmem
      obtain ⟨q, _, rfl⟩ := List.mem_map.mp hseg
      rcases mem_seg q.1 q.2 '&' hmem with h | h
      · exact absurd h (by decide)
      · exact absurd h (by decide)
    rw [splitChar_joinChar '&' _ hsegs (by simp)]
    exact filterMap_segs (p :: ps)

theorem isAlpha_iff_toNat (c : Char) : c.isAlpha = true ↔
    (65 ≤ c.toNat ∧ c.toNat ≤ 90 ∨ 97 ≤ c.toNat ∧ c.toNat ≤ 122) := by
  simp only [Char.isAlpha, Char.isUpper, Char.isLower, Bool.or_eq_true,
    Bool.and_eq_true, decide_eq_true_eq, ge_iff_le,
    UInt32.le_def, BitVec.le_def]
  exact Iff.rfl

theorem toLower_eq_self (c : Char)
    (h : ¬(65 ≤ c.toNat ∧ c.toNat ≤ 90)) : Char.toLower c = c := by
  apply char_toNat_inj
  rw [toLower_toNat, if_neg h]

theorem isAlpha_toLower (c : Char) (h : c.isAlpha = true) :
    (Char.toLower c).isAlpha = true := by
  rw [isAlpha_iff_toNat] at h ⊢
  rw [toLower_toNat]
  split_ifs <;> omega

theorem isSchemeChar_toLower (c : Char) (h : isSchemeChar c = true) :
    isSchemeChar (Char.toLower c) = true := by
  by_cases hu : 65 ≤ c.toNat ∧ c.toNat ≤ 90
  · have ha : (Char.toLower c).isAlpha = true := by
      rw [isAlpha_iff_toNat, toLower_toNat, if_pos hu]
      omega
    simp [isSchemeChar, Char.isAlphanum, ha]
  · rw [toLower_eq_self c hu]
    exact h

theorem validScheme_all (pre : Chars) (h : validScheme pre = true) :
    ∀ c ∈ pre, isSchemeChar c = true := by
  cases pre with
  | nil => simp [validScheme] at h
  | cons p0 ps =>
    simp only [validScheme, Bool.and_eq_true, List.all_eq_true] at h
    exact h.2

theorem validScheme_lowerL (pre : Chars) (h : validScheme pre = true) :
    validScheme (lowerL pre) = true := by
  cases pre with
  | nil => simp [validScheme] at h
  | cons p0 ps =>
    simp only [validScheme, Bool.and_eq_true, List.all_eq_true] at h
    rw [show lowerL (p0 :: ps) = Char.toLower p0 :: lowerL ps from rfl]
    simp only [validScheme, Bool.and_eq_true, List.all_eq_true]
    refine ⟨isAlpha_toLower p0 h.1, ?_⟩
    intro c hc
    rcases List.mem_cons.mp hc with hc | hc
    · subst hc
      exact isSchemeChar_toLower p0 (h.2 p0 (List.mem_cons_self _ _))
    · obtain ⟨d, hd, rfl⟩ := List.mem_map.mp hc
      exact isSchemeChar_toLower d (h.2 d (List.mem_cons_of_mem _ hd))

theorem validScheme_head_not_alpha (p0 : Char) (ps : Chars)
    (h : p0.isAlpha = false) : validScheme (p0 :: ps) = false := by
  simp [validScheme, h]

theorem pred_ne_of_true_false (p : Char → Bool) (c d : Char)
    (h : p c = true) (hd : p d = false) : c ≠ d := by
  intro he
  subst he
  rw [h] at hd
  cases hd

theorem schemeChars_clean (sc : Chars) (h : validScheme sc = true) :
    ∀ c ∈ sc, c ≠ ':' ∧ c ≠ '\t' ∧ c ≠ '\r' ∧ c ≠ '\n' := by
  intro c hc
  have hs := validScheme_all sc h c hc
  exact ⟨pred_ne_of_true_false _ _ _ hs (by decide),
    pred_ne_of_true_false _ _ _ hs (by decide),
    pred_ne_of_true_false _ _ _ hs (by decide),
    pred_ne_of_true_false _ _ _ hs (by decide)⟩

theorem contains_iff_mem (l : Chars) (c : Char) :
    l.contains c = true ↔ c ∈ l := by
  induction l with
  | nil => simp
  | cons x xs ih =>
    rw [show (x :: xs).contains c = (c == x || xs.contains c) from rfl]
    simp [ih, List.mem_cons]

theorem mem_takeWhile_mem (p : Char → Bool) (l : Chars) (a : Char)
    (h : a ∈ l.takeWhile p) : a ∈ l := by
  induction l with
  | nil => simp at h
  | cons x xs ih =>
    rw [List.takeWhile_cons] at h
    split_ifs at h with hx
    · rcases List.mem_cons.mp h with h | h
      · exact h ▸ List.mem_cons_self _ _
      · exact List.mem_cons_of_mem _ (ih h)
    · simp at h

theorem mem_dropWhile_mem (p : Char → Bool) (l : Chars) (a : Char)
    (h : a ∈ l.dropWhile p) : a ∈ l := by
  induction l with
  | nil => simp at h
  | cons x xs ih =>
    rw [List.dropWhile_cons] at h
    split_ifs at h with hx
    · exact List.mem_cons_of_mem _ (ih h)
    · exact h

theorem dropWhile_head_false (p : Char → Bool) (l : Chars) (x : Char)
    (xs : Chars) (h : l.dropWhile p = x :: xs) : p x = false := by
  induction l with
  | nil => simp at h
  | cons y ys ih =>
    rw [List.dropWhile_cons] at h
    split_ifs at h with hy
    · exact ih h
    · cases h
      simp at hy
      exact hy

theorem mem_drop_mem (n : Nat) (l : Chars) (a : Char)
    (h : a ∈ l.drop n) : a ∈ l := by
  induction l generalizing n with
  | nil => simp at h
  | cons x xs ih =>
    cases n with
    | zero => exact h
    | succ m => exact List.mem_cons_of_mem _ (ih m h)

theorem removeUnsafe_eq_self (l : Chars)
    (h : ∀ c ∈ l, c ≠ '\t' ∧ c ≠ '\r' ∧ c ≠ '\n') :
    removeUnsafe l = l := by
  unfold removeUnsafe
  apply List.filter_eq_self.mpr
  intro c hc
  obtain ⟨h1, h2, h3⟩ := h c hc
  simp [h1, h2, h3]

theorem mem_removeUnsafe (l : Chars) (c : Char)
    (h : c ∈ removeUnsafe l) : c ≠ '\t' ∧ c ≠ '\r' ∧ c ≠ '\n' := by
  unfold removeUnsafe at h
  have hp := List.of_mem_filter h
  simp at hp
  exact ⟨hp.1.1, hp.1.2, hp.2⟩

theorem splitLast_mk (c : Char) (pre seg : Chars) (h : c ∉ seg) :
    splitLast c (pre ++ c :: seg) = some (pre, seg) := by
  unfold splitLast
  rw [show (pre ++ c :: seg).reverse = seg.reverse ++ c :: pre.reverse from by
    simp]
  rw [splitFirst_mk c _ _ (by simpa using h)]
  simp

theorem splitLast_eq_some (c : Char) (l a b : Chars)
    (h : splitLast c l = some (a, b)) : l = a ++ c :: b ∧ c ∉ b := by
  unfold splitLast at h
  cases hsp : splitFirst c l.reverse with
  | none => rw [hsp] at h; simp at h
  | some p =>
    obtain ⟨p1, p2⟩ := p
    rw [hsp] at h
    have h2 : (p2.reverse, p1.reverse) = (a, b) :=
      Option.some.inj (show some (p2.reverse, p1.reverse) = some (a, b) from h)
    obtain ⟨ha, hb⟩ := Prod.mk.injEq .. ▸ h2
    have hc2 : p2 = a.reverse := by rw [← ha, List.reverse_reverse]
    have hc1 : p1 = b.reverse := by rw [← hb, List.reverse_reverse]
    subst hc2 hc1
    obtain ⟨hl, hnm⟩ := splitFirst_eq_some c l.reverse _ _ hsp
    constructor
    · have := congrArg List.reverse hl
      rw [List.reverse_reverse] at this
      rw [this]
      simp
    · intro hmem
      exact hnm (by simpa using hmem)

theorem urlunparse_noFrag (sc nl pa pr q : Chars) :
    urlunparse ⟨sc, nl, pa, pr, q, []⟩ =
      (if sc ≠ [] then sc ++ ':' :: urlBody nl (joinParams pa pr)
       else urlBody nl (joinParams pa pr)) ++
      (if q ≠ [] then '?' :: q else []) := by
  simp only [urlunparse, urlBody, joinParams]
  by_cases hq : q = [] <;> simp [hq]

theorem schemeSplit_mk (sc R : Chars) (hval : validScheme sc = true)
    (hlow : lowerL sc = sc) : schemeSplit (sc ++ ':' :: R) = (sc, R) := by
  unfold schemeSplit
  have hnc : ':' ∉ sc := fun hm => (schemeChars_clean sc hval ':' hm).1 rfl
  simp only [splitFirst_mk ':' sc R hnc]
  rw [if_pos hval, hlow]

theorem schemeSplit_no (R : Chars)
    (h : splitFirst ':' R = none ∨ ∃ pre post,
      splitFirst ':' R = some (pre, post) ∧ validScheme pre = false) :
    schemeSplit R = ([], R) := by
  unfold schemeSplit
  rcases h with h | ⟨pre, post, h, hv⟩
  · simp only [h]
  · simp only [h, hv]
    simp

theorem leadsWith_two_iff (l : Chars) :
    leadsWith ['/', '/'] l = true ↔ ∃ t, l = '/' :: '/' :: t := by
  constructor
  · intro h
    match l with
    | [] => simp [leadsWith] at h
    | [x] => simp [leadsWith] at h
    | x :: y :: t =>
      simp only [leadsWith, Bool.and_eq_true, beq_iff_eq] at h
      exact ⟨t, by rw [← h.1, ← h.2.1]⟩
  · rintro ⟨t, rfl⟩
    simp [leadsWith]

theorem splitNetloc_mk (nl X : Chars)
    (hnl : ∀ c ∈ nl, netlocDelim c = false)
    (hX : X = [] ∨ netlocDelim (X.headD ' ') = true) :
    splitNetloc ('/' :: '/' :: (nl ++ X)) = (nl, X) := by
  unfold splitNetloc
  rw [if_pos (by simp [leadsWith])]
  rw [show ('/' :: '/' :: (nl ++ X)).drop 2 = nl ++ X from rfl]
  rw [takeWhile_append_all _ _ _ (fun c hc => by rw [hnl c hc]; rfl),
    dropWhile_append_all _ _ _ (fun c hc => by rw [hnl c hc]; rfl)]
  rcases hX with hX | hX
  · subst hX
    simp
  · cases X with
    | nil => simp
    | cons x xs =>
      simp only [List.headD_cons] at hX
      rw [List.takeWhile_cons, List.dropWhile_cons, hX]
      simp

theorem splitNetloc_plain (url : Chars)
    (h : leadsWith ['/', '/'] url = false) : splitNetloc url = ([], url) := by
  unfold splitNetloc
  rw [if_neg (by simp [h])]

theorem mem_schemeSplit_snd (url : Chars) (c : Char)
    (h : c ∈ (schemeSplit url).2) : c ∈ url := by
  unfold schemeSplit at h
  cases hsp : splitFirst ':' url with
  | none =>
    simp only [hsp] at h
    exact h
  | some p =>
    obtain ⟨pre, post⟩ := p
    simp only [hsp] at h
    split_ifs at h with hv
    · obtain ⟨he, _⟩ := splitFirst_eq_some ':' url pre post hsp
      rw [he]
      exact List.mem_append.mpr (Or.inr (List.mem_cons_of_mem _ h))
    · exact h

theorem mem_splitNetloc_fst (url : Chars) (c : Char)
    (h : c ∈ (splitNetloc url).1) : c ∈ url := by
  unfold splitNetloc at h
  split_ifs at h with hl
  · exact mem_drop_mem 2 url c (mem_takeWhile_mem _ _ _ h)
  · simp at h

theorem mem_splitNetloc_snd (url : Chars) (c : Char)
    (h : c ∈ (splitNetloc url).2) : c ∈ url := by
  unfold splitNetloc at h
  split_ifs at h with hl
  · exact mem_drop_mem 2 url c (mem_dropWhile_mem _ _ _ h)
  · exact h

theorem noScheme_of_append (x t : Chars)
    (hx : splitFirst ':' x = none ∨ ∃ pre post,
        splitFirst ':' x = some (pre, post) ∧ validScheme pre = false)
    (ht : ':' ∉ t) :
    splitFirst ':' (x ++ t) = none ∨ ∃ pre post,
      splitFirst ':' (x ++ t) = some (pre, post) ∧
        validScheme pre = false := by
  rcases hx with hx | ⟨pre, post, hx, hv⟩
  · refine Or.inl (splitFirst_not_mem ':' _ ?_)
    intro hm
    rcases List.mem_append.mp hm with hm | hm
    · exact splitFirst_none_not_mem ':' x hx hm
    · exact ht hm
  · exact Or.inr ⟨pre, post ++ t,
      splitFirst_append_left ':' x t pre post hx, hv⟩

theorem noScheme_of_prefixed (x t : Chars)
    (hx : splitFirst ':' (x ++ t) = none ∨ ∃ pre post,
        splitFirst ':' (x ++ t) = some (pre, post) ∧
          validScheme pre = false) :
    splitFirst ':' x = none ∨ ∃ pre post,
      splitFirst ':' x = some (pre, post) ∧ validScheme pre = false := by
  cases hsp : splitFirst ':' x with
  | none => exact Or.inl rfl
  | some p =>
    obtain ⟨pre, post⟩ := p
    have hap := splitFirst_append_left ':' x t pre post hsp
    rcases hx with hx | ⟨pre2, post2, hx, hv⟩
    · rw [hap] at hx
      cases hx
    · rw [hap] at hx
      have h2 : (pre, post ++ t) = (pre2, post2) := Option.some.inj hx
      exact Or.inr ⟨pre, post, rfl,
        by rw [show pre = pre2 from congrArg Prod.fst h2]; exact hv⟩

theorem splitparams_facts (x : Chars) :
    splitparams (joinParams (splitparams x).1 (splitparams x).2) =
      splitparams x ∧
    (joinParams (splitparams x).1 (splitparams x).2 = x ∨
      x = joinParams (splitparams x).1 (splitparams x).2 ++ [';']) := by
  by_cases hc : x.contains '/' = true
  · cases hl : splitLast '/' x with
    | none =>
      have hx : splitparams x = (x, []) := by
        unfold splitparams
        rw [if_pos hc]
        simp only [hl]
      rw [hx, show joinParams (x, ([] : Chars)).1 (x, ([] : Chars)).2 = x
        from by simp [joinParams]]
      exact ⟨hx, Or.inl rfl⟩
    | some p =>
      obtain ⟨pre, seg⟩ := p
      obtain ⟨hxeq, hnseg⟩ := splitLast_eq_some '/' x pre seg hl
      cases hf : splitFirst ';' seg with
      | none =>
        have hx : splitparams x = (x, []) := by
          unfold splitparams
          rw [if_pos hc]
          simp only [hl, hf]
        rw [hx, show joinParams (x, ([] : Chars)).1 (x, ([] : Chars)).2 = x
          from by simp [joinParams]]
        exact ⟨hx, Or.inl rfl⟩
      | some pf =>
        obtain ⟨a, b⟩ := pf
        obtain ⟨hseq, hna⟩ := splitFirst_eq_some ';' seg a b hf
        have hnsa : '/' ∉ a := fun hm =>
          hnseg (hseq ▸ List.mem_append.mpr (Or.inl hm))
        have hx : splitparams x = (pre ++ '/' :: a, b) := by
          unfold splitparams
          rw [if_pos hc]
          simp only [hl, hf]
        rw [hx]
        by_cases hb : b = []
        · subst hb
          rw [show joinParams (pre ++ '/' :: a, ([] : Chars)).1
              (pre ++ '/' :: a, ([] : Chars)).2 = pre ++ '/' :: a
            from by simp [joinParams]]
          have hcc : (pre ++ '/' :: a).contains '/' = true := by
            rw [contains_iff_mem]
            simp
          constructor
          · unfold splitparams
            rw [if_pos hcc]
            simp only [splitLast_mk '/' pre a hnsa,
              splitFirst_not_mem ';' a hna]
          · refine Or.inr ?_
            rw [hxeq, hseq]
            simp
        · rw [show joinParams (pre ++ '/' :: a, b).1 (pre ++ '/' :: a, b).2 =
              pre ++ '/' :: a ++ ';' :: b from by simp [joinParams, hb]]
          have hjx : pre ++ '/' :: a ++ ';' :: b = x := by
            rw [hxeq, hseq]
            simp
          rw [hjx]
          exact ⟨hx, Or.inl rfl⟩
  · have hnsx : '/' ∉ x := fun hm => hc ((contains_iff_mem x '/').mpr hm)
    cases hf : splitFirst ';' x with
    | none =>
      have hx : splitparams x = (x, []) := by
        unfold splitparams
        rw [if_neg hc]
        simp only [hf]
      rw [hx, show joinParams (x, ([] : Chars)).1 (x, ([] : Chars)).2 = x
        from by simp [joinParams]]
      exact ⟨hx, Or.inl rfl⟩
    | some pf =>
      obtain ⟨a, b⟩ := pf
      obtain ⟨hseq, hna⟩ := splitFirst_eq_some ';' x a b hf
      have hx : splitparams x = (a, b) := by
        unfold splitparams
        rw [if_neg hc]
        simp only [hf]
      rw [hx]
      by_cases hb : b = []
      · subst hb
        rw [show joinParams (a, ([] : Chars)).1 (a, ([] : Chars)).2 = a
          from by simp [joinParams]]
        have hca : ¬a.contains '/' = true := fun hm =>
          hnsx (hseq ▸ List.mem_append.mpr
            (Or.inl ((contains_iff_mem a '/').mp hm)))
        constructor
        · unfold splitparams
          rw [if_neg hca]
          simp only [splitFirst_not_mem ';' a hna]
        · exact Or.inr (by rw [hseq])
      · rw [show joinParams (a, b).1 (a, b).2 = a ++ ';' :: b
          from by simp [joinParams, hb]]
        rw [← hseq]
        exact ⟨hx, Or.inl rfl⟩

theorem urlsplit_roundtrip (sc nl pa pr q : Chars)
    (hsc : sc = [] ∨ (validScheme sc = true ∧ lowerL sc = sc))
    (hnl : ∀ c ∈ nl, netlocDelim c = false)
    (hbr : bracketsOk nl = true)
    (hnlu : ∀ c ∈ nl, c ≠ '\t' ∧ c ≠ '\r' ∧ c ≠ '\n')
    (hp : ∀ c ∈ joinParams pa pr,
      c ≠ '#' ∧ c ≠ '?' ∧ c ≠ '\t' ∧ c ≠ '\r' ∧ c ≠ '\n')
    (hq : ∀ c ∈ q,
      c ≠ '#' ∧ c ≠ '?' ∧ c ≠ ':' ∧ c ≠ '\t' ∧ c ≠ '\r' ∧ c ≠ '\n')
    (hslash : nl ≠ [] → joinParams pa pr = [] ∨
      (joinParams pa pr).headD ' ' = '/')
    (hns : sc = [] → nl = [] →
      leadsWith ['/', '/'] (joinParams pa pr) = false →
      splitFirst ':' (joinParams pa pr) = none ∨
      ∃ pre post, splitFirst ':' (joinParams pa pr) = some (pre, post) ∧
        validScheme pre = false) :
    urlsplitM (urlunparse ⟨sc, nl, pa, pr, q, []⟩) =
      some (sc, nl, joinParams pa pr, q, []) := by
  rw [urlunparse_noFrag]
  set u0 := joinParams pa pr with hu0
  set T : Chars := (if q ≠ [] then '?' :: q else []) with hT
  set B := urlBody nl u0 with hB
  have hTshape : T = [] ∨ T = '?' :: q := by
    rw [hT]
    by_cases hq0 : q = [] <;> simp [hq0]
  have hTm : ∀ c ∈ T, c = '?' ∨ c ∈ q := by
    intro c hcm
    rcases hTshape with h0 | h0 <;> rw [h0] at hcm
    · simp at hcm
    · rcases List.mem_cons.mp hcm with rfl | hcm
      · exact Or.inl rfl
      · exact Or.inr hcm
  have hTc : ':' ∉ T := by
    intro hm
    rcases hTm ':' hm with h0 | h0
    · cases h0
    · exact (hq ':' h0).2.2.1 rfl
  have hBm : ∀ c ∈ B, c = '/' ∨ c ∈ nl ∨ c ∈ u0 := by
    intro c hcm
    rw [hB] at hcm
    unfold urlBody at hcm
    split_ifs at hcm with h1 h2
    · rcases List.mem_append.mp hcm with hcm | hcm
      · rcases List.mem_cons.mp hcm with rfl | hcm
        · exact Or.inl rfl
        rcases List.mem_cons.mp hcm with rfl | hcm
        · exact Or.inl rfl
        · exact Or.inr (Or.inl hcm)
      · rcases List.mem_cons.mp hcm with rfl | hcm
        · exact Or.inl rfl
        · exact Or.inr (Or.inr hcm)
    · rcases List.mem_append.mp hcm with hcm | hcm
      · rcases List.mem_cons.mp hcm with rfl | hcm
        · exact Or.inl rfl
        rcases List.mem_cons.mp hcm with rfl | hcm
        · exact Or.inl rfl
        · exact Or.inr (Or.inl hcm)
      · exact Or.inr (Or.inr hcm)
    · exact Or.inr (Or.inr hcm)
  have hscSafe : ∀ c ∈ sc, c ≠ '\t' ∧ c ≠ '\r' ∧ c ≠ '\n' := by
    rcases hsc with h0 | ⟨hval, _⟩
    · subst h0
      intro c hc
      simp at hc
    · intro c hc
      obtain ⟨_, h2, h3, h4⟩ := schemeChars_clean sc hval c hc
      exact ⟨h2, h3, h4⟩
  have hrm : removeUnsafe ((if sc ≠ [] then sc ++ ':' :: B else B) ++ T) =
      (if sc ≠ [] then sc ++ ':' :: B else B) ++ T := by
    apply removeUnsafe_eq_self
    intro c hcm
    rcases List.mem_append.mp hcm with hcm | hcm
    · have hcb : c ∈ sc ∨ c = ':' ∨ c ∈ B := by
        split_ifs at hcm with h0
        · rcases List.mem_append.mp hcm with hcm | hcm
          · exact Or.inl hcm
          · rcases List.mem_cons.mp hcm with rfl | hcm
            · exact Or.inr (Or.inl rfl)
            · exact Or.inr (Or.inr hcm)
        · exact Or.inr (Or.inr hcm)
      rcases hcb with hcb | hcb | hcb
      · exact hscSafe c hcb
      · subst hcb
        exact ⟨by decide, by decide, by decide⟩
      · rcases hBm c hcb with rfl | hcb | hcb
        · exact ⟨by decide, by decide, by decide⟩
        · exact hnlu c hcb
        · obtain ⟨_, _, h3, h4, h5⟩ := hp c hcb
          exact ⟨h3, h4, h5⟩
    · rcases hTm c hcm with rfl | hcm
      · exact ⟨by decide, by decide, by decide⟩
      · obtain ⟨_, _, _, h4, h5, h6⟩ := hq c hcm
        exact ⟨h4, h5, h6⟩
  have hscomp : ∀ c ∈ u0 ++ T, c ≠ '#' := by
    intro c hcm
    rcases List.mem_append.mp hcm with hcm | hcm
    · exact (hp c hcm).1
    · rcases hTm c hcm with rfl | hcm
      · decide
      · exact (hq c hcm).1
  have hfr : splitFirst '#' (u0 ++ T) = none := by
    apply splitFirst_not_mem
    intro hm
    exact hscomp '#' hm rfl
  have hnq : '?' ∉ u0 := by
    intro hm
    exact (hp '?' hm).2.1 rfl
  have hins : (if u0 ≠ [] ∧ u0.headD ' ' ≠ '/' then '/' :: u0 else u0) = u0 ∨
      (nl = [] ∧ leadsWith ['/', '/'] u0 = false) := by
    by_cases hcond : nl ≠ [] ∨ leadsWith ['/', '/'] u0 = true
    · refine Or.inl (if_neg ?_)
      rintro ⟨hne, hhd⟩
      rcases hcond with hnl0 | hlw
      · rcases hslash hnl0 with h0 | h0
        · exact hne h0
        · exact hhd h0
      · obtain ⟨t, ht2⟩ := (leadsWith_two_iff u0).mp hlw
        rw [ht2] at hhd
        exact hhd rfl
    · refine Or.inr ⟨?_, ?_⟩
      · by_contra hne
        exact hcond (Or.inl hne)
      · cases h2 : leadsWith ['/', '/'] u0
        · rfl
        · exact absurd (Or.inr h2) hcond
  have hssn : schemeSplit ((if sc ≠ [] then sc ++ ':' :: B else B) ++ T) =
      (sc, B ++ T) := by
    rcases hsc with h0 | ⟨hval, hlow⟩
    · rw [if_neg (by rw [h0]; simp)]
      subst h0
      apply schemeSplit_no
      by_cases hcond : nl ≠ [] ∨ leadsWith ['/', '/'] u0 = true
      · have hins2 :
            (if u0 ≠ [] ∧ u0.headD ' ' ≠ '/' then '/' :: u0 else u0) = u0 := by
          rcases hins with h2 | ⟨hnl0, hlw⟩
          · exact h2
          · rcases hcond with h3 | h3
            · exact absurd hnl0 h3
            · rw [h3] at hlw
              cases hlw
        have hBeq : B = '/' :: '/' :: (nl ++ u0) := by
          rw [hB]
          unfold urlBody
          rw [if_pos hcond, hins2]
          simp
        cases hsp2 : splitFirst ':' (B ++ T) with
        | none => exact Or.inl rfl
        | some p =>
          obtain ⟨pre, post⟩ := p
          refine Or.inr ⟨pre, post, rfl, ?_⟩
          obtain ⟨heq, _⟩ := splitFirst_eq_some ':' _ pre post hsp2
          rw [hBeq] at heq
          cases pre with
          | nil =>
            rw [List.nil_append] at heq
            have h4 := congrArg (fun l => l.headD ' ') heq
            simp at h4
          | cons p0 pre2 =>
            have hp0 : p0 = '/' := by
              have h4 := congrArg (fun l => l.headD ' ') heq
              simpa using h4.symm
            rw [hp0]
            exact validScheme_head_not_alpha '/' pre2 (by decide)
      · have hnl0 : nl = [] := by
          by_contra hne
          exact hcond (Or.inl hne)
        have hlw : leadsWith ['/', '/'] u0 = false := by
          cases h2 : leadsWith ['/', '/'] u0
          · rfl
          · exact absurd (Or.inr h2) hcond
        have hBeq : B = u0 := by
          rw [hB]
          unfold urlBody
          rw [if_neg hcond]
        rw [hBeq]
        exact noScheme_of_append u0 T (hns rfl hnl0 hlw) hTc
    · have hscne : sc ≠ [] := by
        intro h2
        rw [h2] at hval
        simp [validScheme] at hval
      rw [if_pos hscne, List.append_assoc, List.cons_append]
      exact schemeSplit_mk sc (B ++ T) hval hlow
  have hsn : splitNetloc (B ++ T) = (nl, u0 ++ T) := by
    by_cases hcond : nl ≠ [] ∨ leadsWith ['/', '/'] u0 = true
    · have hins2 :
          (if u0 ≠ [] ∧ u0.headD ' ' ≠ '/' then '/' :: u0 else u0) = u0 := by
        rcases hins with h2 | ⟨hnl0, hlw⟩
        · exact h2
        · rcases hcond with h3 | h3
          · exact absurd hnl0 h3
          · rw [h3] at hlw
            cases hlw
      have hBeq : B = '/' :: '/' :: (nl ++ u0) := by
        rw [hB]
        unfold urlBody
        rw [if_pos hcond, hins2]
        simp
      rw [hBeq, show ('/' :: '/' :: (nl ++ u0)) ++ T =
        '/' :: '/' :: (nl ++ (u0 ++ T)) from by simp]
      apply splitNetloc_mk nl (u0 ++ T) hnl
      cases hu : u0 with
      | cons x u0t =>
        refine Or.inr ?_
        have hx : x = '/' := by
          rcases hcond with hnl0 | hlw
          · rcases hslash hnl0 with h2 | h2
            · rw [hu] at h2
              cases h2
            · rw [hu] at h2
              simpa using h2
          · obtain ⟨t, ht2⟩ := (leadsWith_two_iff u0).mp hlw
            rw [hu] at ht2
            exact (List.cons.injEq .. ▸ ht2).1
        rw [List.cons_append, List.headD_cons, hx]
        decide
      | nil =>
        rw [List.nil_append]
        rcases hTshape with h2 | h2
        · exact Or.inl h2
        · refine Or.inr ?_
          rw [h2, List.headD_cons]
          decide
    · have hnl0 : nl = [] := by
        by_contra hne
        exact hcond (Or.inl hne)
      have hlw : leadsWith ['/', '/'] u0 = false := by
        cases h2 : leadsWith ['/', '/'] u0
        · rfl
        · exact absurd (Or.inr h2) hcond
      have hBeq : B = u0 := by
        rw [hB]
        unfold urlBody
        rw [if_neg hcond]
      rw [hBeq, hnl0]
      apply splitNetloc_plain
      cases h2 : leadsWith ['/', '/'] (u0 ++ T)
      · rfl
      · exfalso
        obtain ⟨t2, ht2⟩ := (leadsWith_two_iff _).mp h2
        cases hu : u0 with
        | nil =>
          rw [hu, List.nil_append] at ht2
          rcases hTshape with h3 | h3 <;> rw [h3] at ht2
          · cases ht2
          · cases ht2
        | cons x r =>
          cases r with
          | nil =>
            rw [hu, List.cons_append, List.nil_append] at ht2
            have hx := (List.cons.injEq .. ▸ ht2).1
            have hrest := (List.cons.injEq .. ▸ ht2).2
            rcases hTshape with h3 | h3 <;> rw [h3] at hrest
            · cases hrest
            · cases hrest
          | cons y r2 =>
            rw [hu, List.cons_append, List.cons_append] at ht2
            have hx := (List.cons.injEq .. ▸ ht2).1
            have h5 := (List.cons.injEq .. ▸ (List.cons.injEq .. ▸ ht2).2).1
            rw [hu, hx, h5] at hlw
            simp [leadsWith] at hlw
  by_cases hq0 : q = []
  · have hT0 : T = [] := by
      rw [hT]
      simp [hq0]
    have hpqn : splitFirst '?' (u0 ++ T) = none := by
      rw [hT0, List.append_nil]
      exact splitFirst_not_mem '?' u0 hnq
    subst hq0
    simp only [urlsplitM]
    rw [hrm, hssn]
    simp only [hsn, hfr, hpqn]
    simp [hbr, hT0]
  · have hT1 : T = '?' :: q := by
      rw [hT]
      simp [hq0]
    have hpqs : splitFirst '?' (u0 ++ T) = some (u0, q) := by
      rw [hT1]
      exact splitFirst_mk '?' u0 q hnq
    simp only [urlsplitM]
    rw [hrm, hssn]
    simp only [hsn, hfr, hpqs]
    simp [hbr]

theorem schemeSplit_fst (url : Chars) :
    (schemeSplit url).1 = [] ∨
      (validScheme (schemeSplit url).1 = true ∧
        lowerL (schemeSplit url).1 = (schemeSplit url).1) := by
  unfold schemeSplit
  cases hsp : splitFirst ':' url with
  | none => exact Or.inl rfl
  | some p =>
    obtain ⟨pre, post⟩ := p
    dsimp only
    split_ifs with hv
    · exact Or.inr ⟨validScheme_lowerL pre hv, lowerL_idem pre⟩
    · exact Or.inl rfl

theorem schemeSplit_fst_nil (url : Chars)
    (h : (schemeSplit url).1 = []) :
    (schemeSplit url).2 = url ∧
      (splitFirst ':' url = none ∨ ∃ pre post,
        splitFirst ':' url = some (pre, post) ∧
          validScheme pre = false) := by
  unfold schemeSplit at h ⊢
  cases hsp : splitFirst ':' url with
  | none => exact ⟨rfl, Or.inl rfl⟩
  | some p =>
    obtain ⟨pre, post⟩ := p
    rw [hsp] at h
    dsimp only at h ⊢
    split_ifs at h ⊢ with hv
    · exfalso
      have hpre : pre = [] := by
        have h2 : lowerL pre = [] := h
        unfold lowerL at h2
        exact List.map_eq_nil_iff.mp h2
      rw [hpre] at hv
      simp [validScheme] at hv
    · refine ⟨rfl, Or.inr ⟨pre, post, rfl, ?_⟩⟩
      simpa using hv

theorem splitNetloc_fst_delim (url : Chars) :
    ∀ c ∈ (splitNetloc url).1, netlocDelim c = false := by
  unfold splitNetloc
  split_ifs with hl
  · intro c hc
    have h2 := List.mem_takeWhile_imp hc
    simpa using h2
  · intro c hc
    simp at hc

theorem splitNetloc_fst_ne (url : Chars)
    (h : (splitNetloc url).1 ≠ []) :
    leadsWith ['/', '/'] url = true := by
  unfold splitNetloc at h
  split_ifs at h with hl
  · exact hl
  · exact absurd rfl h

theorem splitNetloc_snd_delim (url : Chars)
    (hl : leadsWith ['/', '/'] url = true) :
    (splitNetloc url).2 = [] ∨
      netlocDelim ((splitNetloc url).2.headD ' ') = true := by
  unfold splitNetloc
  rw [if_pos hl]
  dsimp only
  cases hd : (url.drop 2).dropWhile (fun c => !netlocDelim c) with
  | nil => exact Or.inl rfl
  | cons x xs =>
    refine Or.inr ?_
    have h2 := dropWhile_head_false _ _ _ _ hd
    rw [List.headD_cons]
    simpa using h2

theorem splitNetloc_nil_snd (url : Chars)
    (hl : leadsWith ['/', '/'] url = false) :
    (splitNetloc url).2 = url := by
  rw [splitNetloc_plain url hl]

theorem urlsplitM_inv (url sc nl pa2 q0 fr : Chars)
    (h : urlsplitM url = some (sc, nl, pa2, q0, fr)) :
    sc = (schemeSplit (removeUnsafe url)).1 ∧
    nl = (splitNetloc (schemeSplit (removeUnsafe url)).2).1 ∧
    bracketsOk nl = true ∧
    ∃ t, (splitNetloc (schemeSplit (removeUnsafe url)).2).2 = pa2 ++ t ∧
      '#' ∉ pa2 ∧ '?' ∉ pa2 := by
  simp only [urlsplitM] at h
  split_ifs at h with hb
  · cases hfr2 : splitFirst '#'
        (splitNetloc (schemeSplit (removeUnsafe url)).2).2 with
    | none =>
      simp only [hfr2] at h
      cases hpq2 : splitFirst '?'
          (splitNetloc (schemeSplit (removeUnsafe url)).2).2 with
      | none =>
        simp only [hpq2, Option.some.injEq, Prod.mk.injEq] at h
        obtain ⟨h1, h2, h3, _, _⟩ := h
        refine ⟨h1.symm, h2.symm, by rw [← h2]; exact hb,
          [], by rw [← h3]; simp, ?_, ?_⟩
        · rw [← h3]
          exact splitFirst_none_not_mem '#' _ hfr2
        · rw [← h3]
          exact splitFirst_none_not_mem '?' _ hpq2
      | some pq =>
        obtain ⟨a2, b2⟩ := pq
        simp only [hpq2, Option.some.injEq, Prod.mk.injEq] at h
        obtain ⟨h1, h2, h3, _, _⟩ := h
        obtain ⟨hx, hna⟩ := splitFirst_eq_some '?' _ a2 b2 hpq2
        refine ⟨h1.symm, h2.symm, by rw [← h2]; exact hb,
          '?' :: b2, by rw [← h3]; exact hx, ?_, by rw [← h3]; exact hna⟩
        rw [← h3]
        intro hm
        exact splitFirst_none_not_mem '#' _ hfr2
          (hx ▸ List.mem_append.mpr (Or.inl hm))
    | some prf =>
      obtain ⟨a1, b1⟩ := prf
      simp only [hfr2] at h
      obtain ⟨hx1, hna1⟩ := splitFirst_eq_some '#' _ a1 b1 hfr2
      cases hpq2 : splitFirst '?' a1 with
      | none =>
        simp only [hpq2, Option.some.injEq, Prod.mk.injEq] at h
        obtain ⟨h1, h2, h3, _, _⟩ := h
        refine ⟨h1.symm, h2.symm, by rw [← h2]; exact hb,
          '#' :: b1, by rw [← h3]; exact hx1, by rw [← h3]; exact hna1, ?_⟩
        rw [← h3]
        exact splitFirst_none_not_mem '?' _ hpq2
      | some pq =>
        obtain ⟨a2, b2⟩ := pq
        simp only [hpq2, Option.some.injEq, Prod.mk.injEq] at h
        obtain ⟨h1, h2, h3, _, _⟩ := h
        obtain ⟨hx2, hna2⟩ := splitFirst_eq_some '?' a1 a2 b2 hpq2
        refine ⟨h1.symm, h2.symm, by rw [← h2]; exact hb,
          '?' :: b2 ++ '#' :: b1, ?_, ?_, by rw [← h3]; exact hna2⟩
        · rw [← h3, hx1, hx2]
          simp
        · rw [← h3]
          intro hm
          exact hna1 (hx2 ▸ List.mem_append.mpr (Or.inl hm))

theorem filter_idem_pairs (pairs : List (Chars × Chars))
    (prd : Chars × Chars → Bool) :
    (pairs.filter prd).filter prd = pairs.filter prd :=
  List.filter_eq_self.mpr (fun _ ha => List.of_mem_filter ha)

theorem netlocDelim_cases (x : Char) (h : netlocDelim x = true) :
    x = '/' ∨ x = '?' ∨ x = '#' := by
  have h2 : (x = '/' ∨ x = '?') ∨ x = '#' := by
    simpa [netlocDelim] using h
  tauto

theorem head_slash_of_delim (l t2 rest2 : Chars)
    (hrest : rest2 = l ++ t2)
    (hdelim : rest2 = [] ∨ netlocDelim (rest2.headD ' ') = true)
    (hnh : '#' ∉ l) (hnq : '?' ∉ l) :
    l = [] ∨ l.headD ' ' = '/' := by
  cases l with
  | nil => exact Or.inl rfl
  | cons x rest =>
    refine Or.inr ?_
    rw [List.headD_cons]
    subst hrest
    rcases hdelim with h2 | h2
    · simp at h2
    · rw [List.cons_append, List.headD_cons] at h2
      rcases netlocDelim_cases x h2 with h3 | h3 | h3
      · exact h3
      · subst h3
        exact absurd (List.mem_cons_self _ _) hnq
      · subst h3
        exact absurd (List.mem_cons_self _ _) hnh

theorem head_transfer (l pa2 : Chars)
    (hj : l = pa2 ∨ pa2 = l ++ [';'])
    (h2 : pa2 = [] ∨ pa2.headD ' ' = '/') :
    l = [] ∨ l.headD ' ' = '/' := by
  rcases hj with hj | hj
  · rw [hj]
    exact h2
  · cases l with
    | nil => exact Or.inl rfl
    | cons y rest =>
      refine Or.inr ?_
      rw [List.headD_cons]
      subst hj
      rcases h2 with h2 | h2
      · simp at h2
      · rw [List.cons_append, List.headD_cons] at h2
        exact h2

theorem noScheme_of_head_slash (l : Chars)
    (h : l = [] ∨ l.headD ' ' = '/') :
    splitFirst ':' l = none ∨ ∃ pre post,
      splitFirst ':' l = some (pre, post) ∧ validScheme pre = false := by
  rcases h with h | h
  · subst h
    exact Or.inl rfl
  · cases hsp : splitFirst ':' l with
    | none => exact Or.inl rfl
    | some pp =>
      obtain ⟨pre, post⟩ := pp
      refine Or.inr ⟨pre, post, rfl, ?_⟩
      obtain ⟨hxeq, _⟩ := splitFirst_eq_some ':' l pre post hsp
      cases pre with
      | nil =>
        rw [List.nil_append] at hxeq
        rw [hxeq, List.headD_cons] at h
        exact absurd h (by decide)
      | cons p0 pre2 =>
        have hp0 : p0 = '/' := by
          rw [hxeq] at h
          simpa using h
        rw [hp0]
        exact validScheme_head_not_alpha '/' pre2 (by decide)

theorem normalize_urlL_idem (u s : Chars)
    (h : normalize_urlL u DEFAULT_REMOVE_PARAMS true = some s) :
    normalize_urlL s DEFAULT_REMOVE_PARAMS true = some s := by
  unfold normalize_urlL at h
  obtain ⟨p, hp1, hp2⟩ := Option.map_eq_some'.mp h
  unfold urlparse at hp1
  obtain ⟨c, hc1, hc2⟩ := Option.map_eq_some'.mp hp1
  obtain ⟨sc, nl, pa2, q0, fr⟩ := c
  have hsval : s = urlunparse ⟨sc, nl, (splitparams pa2).1,
      (splitparams pa2).2,
      urlencode ((parse_qsl q0).filter
        fun kv => !DEFAULT_REMOVE_PARAMS.contains kv.1), []⟩ := by
    rw [← hp2, ← hc2]
    rfl
  obtain ⟨hsc, hnl, hbr, t, hrest, hnh, hnq⟩ :=
    urlsplitM_inv u sc nl pa2 q0 fr hc1
  set u1 := removeUnsafe u with hu1
  set pa := (splitparams pa2).1 with hpa
  set pr := (splitparams pa2).2 with hpr
  set kept := (parse_qsl q0).filter
    (fun kv => !DEFAULT_REMOVE_PARAMS.contains kv.1) with hkept
  set qE := urlencode kept with hqE
  set x0 := joinParams pa pr with hx0
  obtain ⟨hstab, hjoin⟩ := splitparams_facts pa2
  have hmem_pa2 : ∀ c ∈ pa2, c ∈ u1 := by
    intro c hc
    have h2 : c ∈ (splitNetloc (schemeSplit u1).2).2 := by
      rw [hrest]
      exact List.mem_append.mpr (Or.inl hc)
    exact mem_schemeSplit_snd u1 c (mem_splitNetloc_snd _ c h2)
  have hmem_x0 : ∀ c ∈ x0, c ∈ pa2 := by
    intro c hc
    rcases hjoin with h2 | h2
    · rw [← h2]
      exact hc
    · rw [h2]
      exact List.mem_append.mpr (Or.inl hc)
  have hx0nh : '#' ∉ x0 := fun hm => hnh (hmem_x0 '#' hm)
  have hx0nq : '?' ∉ x0 := fun hm => hnq (hmem_x0 '?' hm)
  have hp_master : ∀ c ∈ x0,
      c ≠ '#' ∧ c ≠ '?' ∧ c ≠ '\t' ∧ c ≠ '\r' ∧ c ≠ '\n' := by
    intro c hc
    have hu := mem_removeUnsafe u c (hmem_pa2 c (hmem_x0 c hc))
    exact ⟨fun he => hx0nh (he ▸ hc), fun he => hx0nq (he ▸ hc),
      hu.1, hu.2.1, hu.2.2⟩
  have hq_master : ∀ c ∈ qE,
      c ≠ '#' ∧ c ≠ '?' ∧ c ≠ ':' ∧ c ≠ '\t' ∧ c ≠ '\r' ∧ c ≠ '\n' := by
    intro c hc
    rcases mem_urlencode kept c hc with h1 | h1 | h1
    · exact ⟨pred_ne_of_true_false isQChar _ _ h1 (by decide),
        pred_ne_of_true_false isQChar _ _ h1 (by decide),
        pred_ne_of_true_false isQChar _ _ h1 (by decide),
        pred_ne_of_true_false isQChar _ _ h1 (by decide),
        pred_ne_of_true_false isQChar _ _ h1 (by decide),
        pred_ne_of_true_false isQChar _ _ h1 (by decide)⟩
    · subst h1
      exact ⟨by decide, by decide, by decide, by decide, by decide,
        by decide⟩
    · subst h1
      exact ⟨by decide, by decide, by decide, by decide, by decide,
        by decide⟩
  have hsc_master : sc = [] ∨ (validScheme sc = true ∧ lowerL sc = sc) := by
    rw [hsc]
    exact schemeSplit_fst u1
  have hnl_master : ∀ c ∈ nl, netlocDelim c = false := by
    rw [hnl]
    exact splitNetloc_fst_delim _
  have hnlu_master : ∀ c ∈ nl, c ≠ '\t' ∧ c ≠ '\r' ∧ c ≠ '\n' := by
    intro c hc
    rw [hnl] at hc
    exact mem_removeUnsafe u c
      (mem_schemeSplit_snd u1 c (mem_splitNetloc_fst _ c hc))
  have hpa2head : leadsWith ['/', '/'] ((schemeSplit u1).2) = true →
      pa2 = [] ∨ pa2.headD ' ' = '/' := by
    intro hlw
    exact head_slash_of_delim pa2 t _ hrest
      (splitNetloc_snd_delim _ hlw) hnh hnq
  have hx0head : pa2 = [] ∨ pa2.headD ' ' = '/' →
      x0 = [] ∨ x0.headD ' ' = '/' :=
    fun h2 => head_transfer x0 pa2 hjoin h2
  have hslash_master : nl ≠ [] → x0 = [] ∨ x0.headD ' ' = '/' := by
    intro hne
    have hlw : leadsWith ['/', '/'] ((schemeSplit u1).2) = true := by
      apply splitNetloc_fst_ne
      rw [← hnl]
      exact hne
    exact hx0head (hpa2head hlw)
  have hns_master : sc = [] → nl = [] →
      leadsWith ['/', '/'] x0 = false →
      splitFirst ':' x0 = none ∨ ∃ pre post,
        splitFirst ':' x0 = some (pre, post) ∧ validScheme pre = false := by
    intro hsc0 _ _
    have hscheme := schemeSplit_fst_nil u1 (by rw [← hsc]; exact hsc0)
    by_cases hlw : leadsWith ['/', '/'] ((schemeSplit u1).2) = true
    · exact noScheme_of_head_slash x0 (hx0head (hpa2head hlw))
    · have hlwf : leadsWith ['/', '/'] ((schemeSplit u1).2) = false := by
        cases h2 : leadsWith ['/', '/'] ((schemeSplit u1).2)
        · rfl
        · exact absurd h2 hlw
      have hrest2 : (splitNetloc (schemeSplit u1).2).2 = (schemeSplit u1).2 :=
        splitNetloc_nil_snd _ hlwf
      have hu1eq : u1 = pa2 ++ t := by
        rw [← hscheme.1, ← hrest2, hrest]
      have hNSpa2 := noScheme_of_prefixed pa2 t (hu1eq ▸ hscheme.2)
      rcases hjoin with hj | hj
      · rw [hx0, hj]
        exact hNSpa2
      · exact noScheme_of_prefixed x0 [';'] (hj ▸ hNSpa2)
  have hmaster := urlsplit_roundtrip sc nl pa pr qE hsc_master hnl_master
    hbr hnlu_master hp_master hq_master hslash_master hns_master
  have hparse : parse_qsl qE = kept := parse_qsl_urlencode kept
  have hfilter : kept.filter
      (fun kv => !DEFAULT_REMOVE_PARAMS.contains kv.1) = kept :=
    filter_idem_pairs (parse_qsl q0) _
  rw [hsval]
  unfold normalize_urlL urlparse
  rw [hmaster]
  simp only [Option.map_some']
  have hfilter2 : List.filter
      (fun kv : Chars × Chars => !decide (kv.1 ∈ DEFAULT_REMOVE_PARAMS))
      kept = kept := by
    apply List.filter_eq_self.mpr
    intro a ha
    have h3 := List.of_mem_filter (hkept ▸ ha)
    simpa using h3
  simp [hstab, hparse, hfilter2]

/-- C7: the Normalizer is idempotent.  Whenever `normalize_url` (with its
default tracking-parameter strip set and fragment stripping enabled)
returns a string rather than raising, applying it to its own output
returns that same output, so `normalize_url(normalize_url(u)) ==
normalize_url(u)` on every URL on which the composition is defined. -/
theorem C7_normalize_idempotent (u s : String)
    (h : normalize_url u = some s) : normalize_url s = some s := by
  unfold normalize_url at h ⊢
  obtain ⟨d, hd1, hd2⟩ := Option.map_eq_some'.mp h
  have h2 := normalize_urlL_idem u.data d hd1
  rw [← hd2]
  rw [show (String.mk d).data = d from rfl, h2]
  rfl

/-- Witness for C7: a gov.br URL with a tracking parameter and a fragment
normalizes to a clean URL, and that output is a fixed point. -/
theorem C7_normalize_idempotent_witness :
    normalize_url "http://a/b?utm_source=x&b=c#f" = some "http://a/b?b=c" ∧
    normalize_url "http://a/b?b=c" = some "http://a/b?b=c" :=
  ⟨by rfl, C7_normalize_idempotent "http://a/b?utm_source=x&b=c#f"
    "http://a/b?b=c" (by rfl)⟩

end DataPlatform
